import Mathlib

/-!
Verification of the route-planner core (`src/graph.hpp`, `src/storage.cpp`)
against its natural-language specification.

The C++ code is shallowly embedded:
* `double` costs become `EDouble`: exact integers plus the sentinel
  `INF = std::numeric_limits<double>::max()`, written `EDouble.inf`.
  (Every property below uses only the ordered additive structure of the
  finite costs, shared by the reals and the integers; integers keep all
  definitions kernel-computable.)
* the mutable `Graph<int>` object becomes a record of vertex records, a
  code index and a global edge list; per-vertex adjacency lists are the
  global list filtered by origin, which preserves insertion order.
  Pointer identity of edges is modelled by an arena id `eid` assigned at
  insertion.
* the search scratch fields (`dist`, `path`, `visited`) that Dijkstra
  fully re-initialises on entry become a local `DState` threaded through
  the loop; the `visited` booleans are represented by the list of visited
  ids in visiting order (membership = the flag).
* `std::priority_queue<Vertex*>` with the `vertexComp` comparator is
  modelled as a bag of vertex ids from which the element with minimal
  current `dist` is extracted (first such element on ties; the C++ heap
  leaves tie order unspecified).
* the `while` loops run on an explicit fuel argument large enough that it
  is never exhausted (proved below), keeping every definition computable
  by the kernel.
* console/file printing is out of scope per the specification; outputs
  keep only the data the printing reads, and reading `back()` of an empty
  `std::vector` (undefined behaviour) is modelled as a crash result.
-/

namespace RoutePlanner

/-- Vertex ids; the program instantiates `Graph<T>` at `T = int`. -/
abbrev VId := Int

/-- Extended cost values: the C++ code uses `double` with
`#define INF std::numeric_limits<double>::max()` as the sentinel for a
blocked/missing connection.  Finite values are modelled exactly, as
integers. -/
inductive EDouble where
  | inf : EDouble
  | val (q : ℤ) : EDouble
deriving DecidableEq

/-- `+` on costs.  The code only ever adds finite values (edges with
`INF` cost are excluded before relaxing), so sending any `inf` operand
to `inf` is a safe completion. -/
def EDouble.add : EDouble → EDouble → EDouble
  | val a, val b => val (a + b)
  | _, _ => inf

/-- The C++ `<` on doubles, with `INF` the largest value. -/
def EDouble.blt : EDouble → EDouble → Bool
  | val a, val b => if a < b then true else false
  | inf, _ => false
  | val _, inf => true

/-- The C++ `<=` on doubles, with `INF` the largest value. -/
def EDouble.ble : EDouble → EDouble → Bool
  | _, inf => true
  | inf, val _ => false
  | val a, val b => if a ≤ b then true else false

instance : LE EDouble := ⟨fun a b => EDouble.ble a b = true⟩

instance : DecidableRel (α := EDouble) (· ≤ ·) := fun a b =>
  inferInstanceAs (Decidable (EDouble.ble a b = true))

/-- Nonnegative-or-infinite cost, as the specification assumes of all
drive/walk times. -/
def EDouble.Nonneg : EDouble → Prop
  | inf => True
  | val q => 0 ≤ q

instance : DecidablePred EDouble.Nonneg := fun c =>
  match c with
  | .inf => isTrue trivial
  | .val q => inferInstanceAs (Decidable (0 ≤ q))

instance {E A : Type} [DecidableEq E] [DecidableEq A] : DecidableEq (Except E A) := fun a b =>
  match a, b with
  | .ok x, .ok y => if h : x = y then isTrue (by rw [h]) else isFalse (by simp [h])
  | .error x, .error y => if h : x = y then isTrue (by rw [h]) else isFalse (by simp [h])
  | .ok _, .error _ => isFalse (by simp)
  | .error _, .ok _ => isFalse (by simp)

/-- A vertex record: `Vertex<T>` restricted to the fields the core
behaviour reads (`info`, `code`, `parkingSpace`, `available`); the
search scratch fields live in `DState`, and the vestigial
Tarjan/topsort fields are unused by the specified behaviour. -/
structure Vertex where
  info : VId
  code : String
  parking : Bool
  available : Bool
deriving DecidableEq

/-- An edge record: `Edge<T>` with pointer identity modelled by the
arena id `eid`.  `reverse` stores the paired edge's id when created by
`addBidirectionalEdge`. -/
structure Edge where
  eid : Nat
  orig : VId
  dest : VId
  walkTime : EDouble
  driveTime : EDouble
  available : Bool
  reverse : Option Nat
deriving DecidableEq

/-- The graph store: vertices in insertion order (the id index), the
code index with `unordered_map` overwrite semantics, and all edges in
insertion order (each vertex's adjacency list is this list filtered by
origin). -/
structure Graph where
  vertices : List Vertex
  codeIndex : List (String × VId)
  edges : List Edge
  nextEid : Nat
deriving DecidableEq

/-- The empty graph. -/
def Graph.empty : Graph := ⟨[], [], [], 0⟩

/-- `Graph<T>::findVertex(const T&)`: lookup in the id index. -/
def Graph.findVertex (g : Graph) (i : VId) : Option Vertex :=
  g.vertices.find? (fun v => v.info = i)

/-- `codeToVertexMap[code] = v`: overwrite an existing key or insert. -/
def updateAssoc (m : List (String × VId)) (k : String) (i : VId) : List (String × VId) :=
  match m with
  | [] => [(k, i)]
  | (k', i') :: rest =>
    if k' = k then (k, i) :: rest else (k', i') :: updateAssoc rest k i

/-- `Graph<T>::addVertex`: fails without mutation when the id is already
present, otherwise inserts into both indices. -/
def Graph.addVertex (g : Graph) (i : VId) (code : String) (parking : Bool) :
    Bool × Graph :=
  if (g.findVertex i).isSome then (false, g)
  else (true,
    { g with
      vertices := g.vertices ++ [⟨i, code, parking, true⟩]
      codeIndex := updateAssoc g.codeIndex code i })

/-- `Graph<T>::addEdge(const T&, const T&, double w, double d)`: `w` is
the walking time and `d` the driving time, as in
`Edge(orig, dest, w, d)`. -/
def Graph.addEdge (g : Graph) (source dest : VId) (w d : EDouble) : Bool × Graph :=
  match g.findVertex source, g.findVertex dest with
  | some _, some _ =>
    (true,
      { g with
        edges := g.edges ++ [⟨g.nextEid, source, dest, w, d, true, none⟩]
        nextEid := g.nextEid + 1 })
  | _, _ => (false, g)

/-- `Graph<T>::addBidirectionalEdge`: two directed edges linked as each
other's `reverse`. -/
def Graph.addBidirectionalEdge (g : Graph) (source dest : VId) (w d : EDouble) :
    Bool × Graph :=
  match g.findVertex source, g.findVertex dest with
  | some _, some _ =>
    (true,
      { g with
        edges := g.edges ++
          [⟨g.nextEid, source, dest, w, d, true, some (g.nextEid + 1)⟩,
           ⟨g.nextEid + 1, dest, source, w, d, true, some g.nextEid⟩]
        nextEid := g.nextEid + 2 })
  | _, _ => (false, g)

/-- `v->getAdj()`: the outgoing edges of `v`, in insertion order. -/
def Graph.adj (g : Graph) (v : VId) : List Edge :=
  g.edges.filter (fun e => e.orig = v)

/-- `edge->getDest()->isAvailable()`: availability of the edge's
destination vertex.  A dangling destination (impossible through the
construction API) counts as unavailable. -/
def Graph.destAvailable (g : Graph) (e : Edge) : Bool :=
  match g.findVertex e.dest with
  | some v => v.available
  | none => false

/-- `Graph<T>::getAllParkingVertices`. -/
def Graph.getAllParkingVertices (g : Graph) : List Vertex :=
  g.vertices.filter (fun v => v.parking)

/-- `vert->setAvailable(b)` applied to the vertex found by id (the id
index has unique keys, so updating every record with this id matches
the single C++ object update). -/
def Graph.setVertexAvailable (g : Graph) (i : VId) (b : Bool) : Graph :=
  { g with
    vertices := g.vertices.map (fun v => if v.info = i then { v with available := b } else v) }

/-- `edge->setAvailable(b)` applied by edge identity, for every id in
the given list (the restoration loops iterate a recorded list of edge
pointers). -/
def Graph.setEdgesAvailable (g : Graph) (eids : List Nat) (b : Bool) : Graph :=
  { g with
    edges := g.edges.map (fun e => if e.eid ∈ eids then { e with available := b } else e) }

/-! ## The Dijkstra search state -/

/-- The per-call search scratch: `dist`, `path` (predecessor edge) and
the visited flags (represented as the list of visited ids, most recent
first), plus the contents of the priority queue. -/
structure DState where
  dist : VId → EDouble
  pred : VId → Option Edge
  visited : List VId
  pq : List VId

/-- State after the initialisation loop plus `originVert->setDist(0)`
and `pq.push(originVert)`. -/
def dijkstraInit (origin : VId) : DState :=
  { dist := fun v => if v = origin then .val 0 else .inf
    pred := fun _ => none
    visited := []
    pq := [origin] }

/-- Extraction from the priority queue: the first element of minimal
current `dist` and the remaining queue.  (`std::priority_queue` with
`vertexComp` delivers an element of minimal current distance; tie order
among equal keys is unspecified in C++ and fixed here as first-in.) -/
def popMin (dist : VId → EDouble) : List VId → Option (VId × List VId)
  | [] => none
  | x :: xs =>
    match popMin dist xs with
    | none => some (x, [])
    | some (m, rest) =>
      if (dist m).blt (dist x) then some (m, x :: rest) else some (x, xs)

/-- The relaxation loop body of `dijkstraDriving`: skip an edge when its
drive time is `INF`, it is unavailable, or its destination vertex is
unavailable; otherwise relax on strict improvement, recording the
predecessor edge and re-pushing the neighbour. -/
def relaxDriving (g : Graph) (u : VId) : List Edge → DState → DState
  | [], st => st
  | e :: es, st =>
    if e.driveTime = EDouble.inf ∨ e.available = false ∨ g.destAvailable e = false then
      relaxDriving g u es st
    else
      let newDist := (st.dist u).add e.driveTime
      if newDist.blt (st.dist e.dest) then
        relaxDriving g u es
          { st with
            dist := fun v => if v = e.dest then newDist else st.dist v
            pred := fun v => if v = e.dest then some e else st.pred v
            pq := st.pq ++ [e.dest] }
      else relaxDriving g u es st

/-- The relaxation loop body of `dijkstraWalking`: the only exclusion is
an `INF` walk time; availability flags are not consulted. -/
def relaxWalking (g : Graph) (u : VId) : List Edge → DState → DState
  | [], st => st
  | e :: es, st =>
    if e.walkTime = EDouble.inf then
      relaxWalking g u es st
    else
      let newDist := (st.dist u).add e.walkTime
      if newDist.blt (st.dist e.dest) then
        relaxWalking g u es
          { st with
            dist := fun v => if v = e.dest then newDist else st.dist v
            pred := fun v => if v = e.dest then some e else st.pred v
            pq := st.pq ++ [e.dest] }
      else relaxWalking g u es st

/-- The main `while (!pq.empty())` loop of `dijkstraDriving`: pop, skip
if already visited, mark visited, stop early on the destination, else
relax the outgoing edges.  The fuel is set by the caller to a proven
upper bound on the iteration count. -/
def dijkstraLoopDriving (g : Graph) (destV : VId) : Nat → DState → DState
  | 0, st => st
  | fuel + 1, st =>
    match popMin st.dist st.pq with
    | none => st
    | some (u, rest) =>
      if u ∈ st.visited then
        dijkstraLoopDriving g destV fuel { st with pq := rest }
      else
        let st' : DState := { st with visited := u :: st.visited, pq := rest }
        if u = destV then st'
        else dijkstraLoopDriving g destV fuel (relaxDriving g u (g.adj u) st')

/-- The main loop of `dijkstraWalking`; identical shape, walking
relaxation. -/
def dijkstraLoopWalking (g : Graph) (destV : VId) : Nat → DState → DState
  | 0, st => st
  | fuel + 1, st =>
    match popMin st.dist st.pq with
    | none => st
    | some (u, rest) =>
      if u ∈ st.visited then
        dijkstraLoopWalking g destV fuel { st with pq := rest }
      else
        let st' : DState := { st with visited := u :: st.visited, pq := rest }
        if u = destV then st'
        else dijkstraLoopWalking g destV fuel (relaxWalking g u (g.adj u) st')

/-- Fuel bound for the loops: one initial push plus at most one push per
edge, plus slack (proved sufficient below). -/
def Graph.dijkstraFuel (g : Graph) : Nat :=
  g.vertices.length + g.edges.length + 2

/-- Path reconstruction: walk predecessor edges backward from the
destination until none remain (`destVert->getPath()` etc.), then
reverse.  The C++ loop has no bound; the fuel covers any acyclic
predecessor chain and is proved not to truncate. -/
def buildChain (pred : VId → Option Edge) : Nat → VId → List Edge
  | 0, _ => []
  | fuel + 1, v =>
    match pred v with
    | none => []
    | some e => e :: buildChain pred fuel e.orig

/-- `if (destVert->getPath() == nullptr) return {};` followed by the
backward walk and `std::reverse`. -/
def Graph.getPath (g : Graph) (st : DState) (destination : VId) : List Edge :=
  match st.pred destination with
  | none => []
  | some _ => (buildChain st.pred (g.vertices.length + 1) destination).reverse

/-- `Graph<T>::dijkstraDriving` up to (but not including) path
reconstruction: lookup failures raise `std::runtime_error`, modelled as
`Except.error` carrying the message. -/
def Graph.dijkstraDrivingState (g : Graph) (origin destination : VId) :
    Except String DState :=
  match g.findVertex origin with
  | none => .error ("Dijkstra error: could not find vertex with id " ++ toString origin)
  | some _ =>
    match g.findVertex destination with
    | none => .error ("Dijkstra error: could not find vertex with id " ++ toString destination)
    | some _ =>
      .ok (dijkstraLoopDriving g destination g.dijkstraFuel (dijkstraInit origin))

/-- `Graph<T>::dijkstraDriving`: the returned edge sequence. -/
def Graph.dijkstraDriving (g : Graph) (origin destination : VId) :
    Except String (List Edge) :=
  (g.dijkstraDrivingState origin destination).map (fun st => g.getPath st destination)

/-- `Graph<T>::dijkstraWalking` up to path reconstruction: a missing
origin or destination returns the empty result (`return {};`), not an
error. -/
def Graph.dijkstraWalkingState (g : Graph) (origin destination : VId) :
    Option DState :=
  match g.findVertex origin with
  | none => none
  | some _ =>
    match g.findVertex destination with
    | none => none
    | some _ =>
      some (dijkstraLoopWalking g destination g.dijkstraFuel (dijkstraInit origin))

/-- `Graph<T>::dijkstraWalking`: the returned edge sequence. -/
def Graph.dijkstraWalking (g : Graph) (origin destination : VId) : List Edge :=
  match g.dijkstraWalkingState origin destination with
  | none => []
  | some st => g.getPath st destination

/-! ## The route composer and the multimodal planner

Stateful operations return their result alongside the graph as left at
exit: the final graph at a normal return, or the mutated graph at the
point where an exception escapes or `vector::back()` is read on an
empty vector (undefined behaviour, modelled as a crash result).
Console/file printing is out of scope; outputs keep the printed data. -/

/-- How an operation can fail: a `std::runtime_error` escaping from a
Dijkstra lookup, or undefined behaviour from `back()` on an empty
`std::vector`. -/
inductive RouteError where
  | lookup (msg : String)
  | emptyBack
deriving DecidableEq

/-- The exclusion loop over `avoidNodes`: unknown ids are silently
skipped (assumed typos), found vertices get `setAvailable(b)`. -/
def markAvoidNodes (g : Graph) (ns : List VId) (b : Bool) : Graph :=
  ns.foldl (fun g' n => if (g'.findVertex n).isSome then g'.setVertexAvailable n b else g') g

/-- The exclusion loop over `avoidSegments`: for each pair with both
endpoints present, every outgoing edge of the first endpoint whose
destination matches the second is recorded (these are the
`switchedEdges` the C++ later restores). -/
def switchedEdgeIds (g : Graph) (segs : List (VId × VId)) : List Nat :=
  segs.foldl
    (fun acc p =>
      if (g.findVertex p.1).isSome ∧ (g.findVertex p.2).isSome then
        acc ++ ((g.adj p.1).filter (fun e => e.dest = p.2)).map (fun e => e.eid)
      else acc) []

/-- What `fastestDrivingPathWithAlt` prints: the best route (or
"none") and the alternative route (or "none"). -/
structure AltOutput where
  source : VId
  destination : VId
  best : Option (List Edge)
  alt : Option (List Edge)
deriving DecidableEq

/-- `Graph<T>::fastestDrivingPathWithAlt`: run the drive-time search;
if empty report none/none; otherwise mark the found path's edges
unavailable, search again, and restore the marked edges. -/
def Graph.fastestDrivingPathWithAlt (g : Graph) (origin destination : VId) :
    Except String AltOutput × Graph :=
  match g.dijkstraDrivingState origin destination with
  | .error msg => (.error msg, g)
  | .ok st1 =>
    let usedRoads := g.getPath st1 destination
    if usedRoads = [] then
      (.ok ⟨origin, destination, none, none⟩, g)
    else
      let eids := usedRoads.map (fun e => e.eid)
      let g2 := g.setEdgesAvailable eids false
      match g2.dijkstraDrivingState origin destination with
      | .error msg => (.error msg, g2)
      | .ok st2 =>
        let altRoads := g2.getPath st2 destination
        let g3 := g2.setEdgesAvailable eids true
        (.ok ⟨origin, destination, some usedRoads,
          if altRoads = [] then none else some altRoads⟩, g3)

/-- What `fastestRestrictedDrivingPath` prints: the restricted route
(`none` for "RestrictedDrivingRoute:none") and its printed total. -/
structure RestrictedOutput where
  source : VId
  destination : VId
  route : Option (List Edge)
  cost : Option EDouble
deriving DecidableEq

/-- `Graph<T>::fastestRestrictedDrivingPath`: exclude the requested
nodes and segments, run one drive-time search (or two through the
mandatory stop), and restore the exclusions before returning.  The
branch without a stop reads `path.back()` without an emptiness check:
on an empty path this is undefined behaviour (`RouteError.emptyBack`)
and the restoration is never reached.  An exception from a Dijkstra
lookup likewise escapes before any restoration. -/
def Graph.fastestRestrictedDrivingPath (g : Graph) (origin destination : VId)
    (avoidNodes : List VId) (avoidSegments : List (VId × VId)) (stop : Option VId) :
    Except RouteError RestrictedOutput × Graph :=
  let g1 := markAvoidNodes g avoidNodes false
  let eids := switchedEdgeIds g1 avoidSegments
  let g2 := g1.setEdgesAvailable eids false
  match stop with
  | none =>
    match g2.dijkstraDrivingState origin destination with
    | .error msg => (.error (.lookup msg), g2)
    | .ok st =>
      let path := g2.getPath st destination
      match path.getLast? with
      | none => (.error .emptyBack, g2)
      | some lastE =>
        let g3 := (markAvoidNodes g2 avoidNodes true).setEdgesAvailable eids true
        (.ok ⟨origin, destination, some path, some (st.dist lastE.dest)⟩, g3)
  | some s =>
    match g2.dijkstraDrivingState origin s with
    | .error msg => (.error (.lookup msg), g2)
    | .ok st1 =>
      let firstHalf := g2.getPath st1 s
      match firstHalf.getLast? with
      | none =>
        let g3 := (markAvoidNodes g2 avoidNodes true).setEdgesAvailable eids true
        (.ok ⟨origin, destination, none, none⟩, g3)
      | some lastE1 =>
        let halfwayDist := st1.dist lastE1.dest
        match g2.dijkstraDrivingState s destination with
        | .error msg => (.error (.lookup msg), g2)
        | .ok st2 =>
          let secondHalf := g2.getPath st2 destination
          match secondHalf.getLast? with
          | none =>
            let g3 := (markAvoidNodes g2 avoidNodes true).setEdgesAvailable eids true
            (.ok ⟨origin, destination, none, none⟩, g3)
          | some lastE2 =>
            let finalDist := st2.dist lastE2.dest
            let g3 := (markAvoidNodes g2 avoidNodes true).setEdgesAvailable eids true
            (.ok ⟨origin, destination, some (firstHalf ++ secondHalf),
              some (halfwayDist.add finalDist)⟩, g3)

/-- A within-budget parking candidate, mirroring the C++ tuple
`(totalTime, drivePath, walkPath, parkId)`. -/
structure EnvCand where
  total : EDouble
  drivePath : List Edge
  walkPath : List Edge
  parkId : VId
deriving DecidableEq

/-- An over-budget candidate, mirroring the C++ tuple
`(totalTime, walkTime, drivePath, walkPath, parkId)`. -/
structure EnvApproxCand where
  total : EDouble
  walkTime : EDouble
  drivePath : List Edge
  walkPath : List Edge
  parkId : VId
deriving DecidableEq

/-- The per-parking-vertex loop of `calculateEnvironmentalRoute`:
skip the origin/destination, skip candidates without both legs, sum the
leg times, and partition by the walking-time budget.  A
`std::runtime_error` from the drive-time search propagates. -/
def collectEnvCandidates (g : Graph) (source destination : VId) (maxWalkingTime : Int) :
    List Vertex → Except String (List EnvCand × List EnvApproxCand)
  | [] => .ok ([], [])
  | park :: rest =>
    if park.info = source ∨ park.info = destination then
      collectEnvCandidates g source destination maxWalkingTime rest
    else
      match g.dijkstraDriving source park.info with
      | .error msg => .error msg
      | .ok drivePath =>
        if drivePath = [] then collectEnvCandidates g source destination maxWalkingTime rest
        else
          let walkPath := g.dijkstraWalking park.info destination
          if walkPath = [] then collectEnvCandidates g source destination maxWalkingTime rest
          else
            let walkTime := walkPath.foldl (fun a e => a.add e.walkTime) (EDouble.val 0)
            let driveTime := drivePath.foldl (fun a e => a.add e.driveTime) (EDouble.val 0)
            let totalTime := driveTime.add walkTime
            match collectEnvCandidates g source destination maxWalkingTime rest with
            | .error msg => .error msg
            | .ok (cands, approxCands) =>
              if walkTime ≤ .val maxWalkingTime then
                .ok (⟨totalTime, drivePath, walkPath, park.info⟩ :: cands, approxCands)
              else
                .ok (cands, ⟨totalTime, walkTime, drivePath, walkPath, park.info⟩ :: approxCands)

/-- `std::min_element` over the within-budget candidates with the
strictly-less-on-`total` comparator: the first candidate of minimal
total. -/
def selectBestEnvCand (c : EnvCand) (cs : List EnvCand) : EnvCand :=
  cs.foldl (fun b x => if x.total.blt b.total then x else b) c

/-- The strict `(total, walkTime)` lexicographic comparator the C++
passes to `std::sort` over the over-budget candidates. -/
def envApproxLess (a b : EnvApproxCand) : Bool :=
  if a.total = b.total then a.walkTime.blt b.walkTime else a.total.blt b.total

/-- Insertion step of a stable sort by `envApproxLess` (the C++
`std::sort` leaves the order of equal keys unspecified; stable order is
fixed here). -/
def insertApprox (x : EnvApproxCand) : List EnvApproxCand → List EnvApproxCand
  | [] => [x]
  | y :: ys => if envApproxLess x y then x :: y :: ys else y :: insertApprox x ys

/-- Sorting of the over-budget candidates. -/
def sortApprox : List EnvApproxCand → List EnvApproxCand
  | [] => []
  | x :: xs => insertApprox x (sortApprox xs)

/-- What `calculateEnvironmentalRoute` prints: a single within-budget
route, the list of approximate over-budget alternatives, or no route. -/
inductive EnvOutput where
  | route (drivePath : List Edge) (parkNode : VId) (walkPath : List Edge) (total : EDouble)
  | approx (alts : List EnvApproxCand)
  | noRoute
deriving DecidableEq

/-- `StorageHandler::calculateEnvironmentalRoute` acting on its
`cityGraph`: exclude the requested nodes/segments, enumerate parking
candidates (a drive leg plus a walk leg each), pick the within-budget
candidate of minimal total if any, otherwise report the over-budget
candidates within 2 time units of the best, otherwise no route;
restore the exclusions on each of those returns.  An exception from the
drive-time search escapes before restoration. -/
def calculateEnvironmentalRoute (g : Graph) (source destination : VId)
    (maxWalkingTime : Int) (avoidNodes : List VId)
    (avoidSegments : List (VId × VId)) :
    Except RouteError EnvOutput × Graph :=
  let g1 := markAvoidNodes g avoidNodes false
  let eids := switchedEdgeIds g1 avoidSegments
  let g2 := g1.setEdgesAvailable eids false
  match collectEnvCandidates g2 source destination maxWalkingTime g2.getAllParkingVertices with
  | .error msg => (.error (.lookup msg), g2)
  | .ok (cands, approxCands) =>
    let g3 := (markAvoidNodes g2 avoidNodes true).setEdgesAvailable eids true
    match cands with
    | c :: cs =>
      let best := selectBestEnvCand c cs
      (.ok (.route best.drivePath best.parkId best.walkPath best.total), g3)
    | [] =>
      match sortApprox approxCands with
      | [] => (.ok .noRoute, g3)
      | b :: bs =>
        (.ok (.approx ((b :: bs).takeWhile
          (fun t => !((b.total.add (.val 2)).blt t.total)))), g3)

/-! ## Concrete graphs used by witnesses and counterexamples -/

/-- The specification's test scenario: `A(id=1,code="A")`,
`B(id=2,code="B",parking=true)`, `C(id=3,code="C")`; bidirectional
edges `A–B` (drive 5, walk 10) and `B–C` (drive 3, walk 2). -/
def gABC : Graph :=
  let g1 := ((Graph.empty).addVertex 1 "A" false).2
  let g2 := (g1.addVertex 2 "B" true).2
  let g3 := (g2.addVertex 3 "C" false).2
  let g4 := (g3.addBidirectionalEdge 1 2 (.val 10) (.val 5)).2
  ((g4.addBidirectionalEdge 2 3 (.val 2) (.val 3)).2)

/-! ## Order lemmas for `EDouble` -/

@[simp] theorem EDouble.blt_val_val {a b : ℤ} :
    (EDouble.val a).blt (EDouble.val b) = true ↔ a < b := by
  by_cases h : a < b <;> simp [EDouble.blt, h]

@[simp] theorem EDouble.blt_inf_left {b : EDouble} : EDouble.inf.blt b = false := rfl

@[simp] theorem EDouble.blt_val_inf {a : ℤ} :
    (EDouble.val a).blt EDouble.inf = true := rfl

@[simp] theorem EDouble.ble_inf_right {a : EDouble} : a.ble EDouble.inf = true := by
  cases a <;> rfl

@[simp] theorem EDouble.ble_inf_val {b : ℤ} :
    EDouble.inf.ble (EDouble.val b) = false := rfl

@[simp] theorem EDouble.ble_val_val {a b : ℤ} :
    (EDouble.val a).ble (EDouble.val b) = true ↔ a ≤ b := by
  by_cases h : a ≤ b <;> simp [EDouble.ble, h]

theorem EDouble.le_def {a b : EDouble} : a ≤ b ↔ a.ble b = true := Iff.rfl

@[simp] theorem EDouble.le_inf (a : EDouble) : a ≤ EDouble.inf := by
  cases a <;> simp [EDouble.le_def]

@[simp] theorem EDouble.val_le_val {a b : ℤ} :
    EDouble.val a ≤ EDouble.val b ↔ a ≤ b := by
  simp [EDouble.le_def]

@[simp] theorem EDouble.inf_le_val {b : ℤ} : ¬ (EDouble.inf ≤ EDouble.val b) := by
  simp [EDouble.le_def]

theorem EDouble.le_refl (a : EDouble) : a ≤ a := by
  cases a <;> simp

theorem EDouble.le_trans {a b c : EDouble} (h1 : a ≤ b) (h2 : b ≤ c) : a ≤ c := by
  cases a <;> cases b <;> cases c <;> simp_all
  linarith

theorem EDouble.blt_eq_false_iff {a b : EDouble} : a.blt b = false ↔ b ≤ a := by
  cases a <;> cases b <;>
    simp [EDouble.blt, EDouble.le_def, Bool.eq_false_iff]

theorem EDouble.le_of_blt {a b : EDouble} (h : a.blt b = true) : a ≤ b := by
  cases a <;> cases b <;> simp_all
  linarith

theorem EDouble.le_total (a b : EDouble) : a ≤ b ∨ b ≤ a := by
  cases a <;> cases b <;> simp
  exact LinearOrder.le_total _ _

/-- Adding a nonnegative cost cannot decrease a value. -/
theorem EDouble.le_add_of_nonneg {a c : EDouble} (hc : c.Nonneg) : a ≤ a.add c := by
  cases a <;> cases c <;> simp_all [EDouble.add, EDouble.Nonneg]

/-- Monotonicity of `add` in the left argument. -/
theorem EDouble.add_le_add_right {a b : EDouble} (c : EDouble) (h : a ≤ b) :
    a.add c ≤ b.add c := by
  cases a <;> cases b <;> cases c <;> simp_all [EDouble.add]

theorem EDouble.add_assoc (a b c : EDouble) : (a.add b).add c = a.add (b.add c) := by
  cases a <;> cases b <;> cases c <;> simp [EDouble.add] <;> ring

theorem EDouble.add_nonneg {a b : EDouble} (ha : a.Nonneg) (hb : b.Nonneg) :
    (a.add b).Nonneg := by
  cases a <;> cases b <;> simp_all [EDouble.add, EDouble.Nonneg]
  all_goals linarith

theorem EDouble.val_zero_le_of_nonneg {a : EDouble} (ha : a.Nonneg) : EDouble.val 0 ≤ a := by
  cases a <;> simp_all [EDouble.Nonneg]

theorem EDouble.add_ne_inf {a b : EDouble} (h : a.add b ≠ EDouble.inf) :
    a ≠ EDouble.inf ∧ b ≠ EDouble.inf := by
  cases a <;> cases b <;> simp_all [EDouble.add]

/-! ## C8: duplicate `addVertex` -/

/-- C8: for every graph and every id already present in it, a second
`addVertex` call with that id returns `false` and performs no
mutation — the vertex list, the id index, and the code index are all
exactly as before the call, whatever code or parking flag the second
call supplies. -/
theorem addVertex_duplicate (g : Graph) (i : VId) (c : String) (p : Bool)
    (h : (g.findVertex i).isSome) :
    g.addVertex i c p = (false, g) := by
  simp [Graph.addVertex, h]

/-- Witness for C8: re-adding id 1 to the scenario graph with a
different code and parking flag returns `false` and leaves the graph
unchanged. -/
theorem addVertex_duplicate_witness :
    (gABC.findVertex 1).isSome = true ∧ gABC.addVertex 1 "Z" true = (false, gABC) :=
  ⟨by decide, addVertex_duplicate gABC 1 "Z" true (by decide)⟩

/-! ## C9: a query from a vertex to itself -/

/-- With origin = destination, the first loop iteration pops the origin,
marks it visited, recognises it as the destination and stops, leaving
every predecessor unset. -/
theorem dijkstraLoopDriving_self (g : Graph) (v : VId) (n : Nat) :
    dijkstraLoopDriving g v (n + 1) (dijkstraInit v) =
      ⟨(dijkstraInit v).dist, fun _ => none, [v], []⟩ := by
  simp [dijkstraLoopDriving, popMin, dijkstraInit]

/-- Same first-iteration stop for the walking loop. -/
theorem dijkstraLoopWalking_self (g : Graph) (v : VId) (n : Nat) :
    dijkstraLoopWalking g v (n + 1) (dijkstraInit v) =
      ⟨(dijkstraInit v).dist, fun _ => none, [v], []⟩ := by
  simp [dijkstraLoopWalking, popMin, dijkstraInit]

/-- C9 (amended): for every graph and every vertex `v` present in it,
`dijkstraDriving` and `dijkstraWalking` with origin = destination
`(v, v)` return the empty edge list — the representation also used for
an unreachable destination — and consequently the plain/alternate
entry point reports "none" for both routes; the restricted entry point
with a mandatory waypoint and the multimodal entry point, by contrast,
can report nonempty routes for `(v, v)` (see the counterexample). -/
theorem dijkstra_self_empty (g : Graph) (v : VId) (h : (g.findVertex v).isSome) :
    g.dijkstraDriving v v = .ok [] ∧ g.dijkstraWalking v v = [] ∧
    g.fastestDrivingPathWithAlt v v = (.ok ⟨v, v, none, none⟩, g) := by
  obtain ⟨vert, hv⟩ := Option.isSome_iff_exists.mp h
  have hfuel : g.dijkstraFuel = (g.vertices.length + g.edges.length + 1) + 1 := rfl
  have hstate : g.dijkstraDrivingState v v =
      .ok ⟨(dijkstraInit v).dist, fun _ => none, [v], []⟩ := by
    simp [Graph.dijkstraDrivingState, hv, hfuel, dijkstraLoopDriving_self]
  have hpath : g.getPath ⟨(dijkstraInit v).dist, fun _ => none, [v], []⟩ v = [] := by
    simp [Graph.getPath]
  refine ⟨?_, ?_, ?_⟩
  · simp [Graph.dijkstraDriving, hstate, hpath, Except.map]
  · simp [Graph.dijkstraWalking, Graph.dijkstraWalkingState, hv, hfuel,
      dijkstraLoopWalking_self, hpath]
  · simp [Graph.fastestDrivingPathWithAlt, hstate, hpath]

/-- Witness for C9: the self-query on the scenario graph. -/
theorem dijkstra_self_empty_witness :
    gABC.dijkstraDriving 2 2 = .ok [] ∧ gABC.dijkstraWalking 2 2 = [] ∧
    gABC.fastestDrivingPathWithAlt 2 2 = (.ok ⟨2, 2, none, none⟩, gABC) :=
  dijkstra_self_empty gABC 2 (by decide)

/-- Counterexample for C9 as stated: on the scenario graph the
restricted entry point queried from vertex 1 to itself through the
mandatory waypoint 2 reports the nonempty route over edges 0 and 1
(`1 → 2 → 1`), not a "no route" outcome. -/
theorem restricted_self_not_none :
    ((gABC.fastestRestrictedDrivingPath 1 1 [] [] (some 2)).1.map
      (fun out => out.route.map (fun es => es.map (fun e => e.eid)))) =
      .ok (some [0, 1]) := by decide

/-! ## C6: missing-id policy of the two searches -/

/-- C6 (amended): the two cost-specific searches do not share one
missing-id policy: for every graph and every query with a missing
origin or destination id, the drive-time search signals a failure
(`std::runtime_error`, modelled as `Except.error`) while the walk-time
search returns the empty unreachable-path result. -/
theorem missing_id_policies_differ (g : Graph) (o d : VId)
    (h : g.findVertex o = none ∨ g.findVertex d = none) :
    (∃ msg, g.dijkstraDriving o d = .error msg) ∧ g.dijkstraWalking o d = [] := by
  constructor
  · rcases h with h | h
    · exact ⟨"Dijkstra error: could not find vertex with id " ++ toString o,
        by simp [Graph.dijkstraDriving, Graph.dijkstraDrivingState, h, Except.map]⟩
    · cases ho : g.findVertex o with
      | none =>
        exact ⟨"Dijkstra error: could not find vertex with id " ++ toString o,
          by simp [Graph.dijkstraDriving, Graph.dijkstraDrivingState, ho, Except.map]⟩
      | some vo =>
        exact ⟨"Dijkstra error: could not find vertex with id " ++ toString d,
          by simp [Graph.dijkstraDriving, Graph.dijkstraDrivingState, ho, h, Except.map]⟩
  · rcases h with h | h
    · simp [Graph.dijkstraWalking, Graph.dijkstraWalkingState, h]
    · cases ho : g.findVertex o with
      | none => simp [Graph.dijkstraWalking, Graph.dijkstraWalkingState, ho]
      | some vo => simp [Graph.dijkstraWalking, Graph.dijkstraWalkingState, ho, h]

/-- Witness for C6 (amended): id 99 is absent from the scenario graph. -/
theorem missing_id_policies_differ_witness :
    (∃ msg, gABC.dijkstraDriving 1 99 = .error msg) ∧ gABC.dijkstraWalking 1 99 = [] :=
  missing_id_policies_differ gABC 1 99 (Or.inr (by decide))

/-- Counterexample for C6 as stated: on the scenario graph with the
absent id 99, the drive-time search fails with an exception while the
walk-time search returns the unreachable-path result — neither the
"always fail" nor the "always empty" uniform policy holds across the
two searches. -/
theorem missing_id_policy_counterexample :
    gABC.dijkstraDriving 1 99 =
      .error "Dijkstra error: could not find vertex with id 99" ∧
    gABC.dijkstraWalking 1 99 = [] := by
  constructor <;> decide

/-! ## Valid driving paths and their costs -/

/-- The driving search's relaxation condition on an edge: finite drive
time, edge available, destination vertex available (the exact negation
of the `continue` guard in `dijkstraDriving`). -/
def usableDrive (g : Graph) (e : Edge) : Prop :=
  e.driveTime ≠ EDouble.inf ∧ e.available = true ∧ g.destAvailable e = true

instance (g : Graph) : DecidablePred (usableDrive g) := fun e =>
  inferInstanceAs (Decidable (_ ∧ _ ∧ _))

/-- A valid driving path: a linked sequence of graph edges, each
relaxable by the driving search, from the first id to the second.  The
empty sequence is the (trivial) path from a vertex to itself. -/
inductive DrivePath (g : Graph) : VId → VId → List Edge → Prop
  | nil (v : VId) : DrivePath g v v []
  | cons (e : Edge) {d : VId} {es : List Edge}
      (he : e ∈ g.edges) (hu : usableDrive g e)
      (hrest : DrivePath g e.dest d es) : DrivePath g e.orig d (e :: es)

/-- The drive-time cost of an edge sequence: the sum of its edges'
drive times. -/
def pathCost (es : List Edge) : EDouble :=
  es.foldr (fun e a => e.driveTime.add a) (EDouble.val 0)

@[simp] theorem pathCost_nil : pathCost [] = EDouble.val 0 := rfl

@[simp] theorem pathCost_cons (e : Edge) (es : List Edge) :
    pathCost (e :: es) = e.driveTime.add (pathCost es) := rfl

@[simp] theorem EDouble.add_val_zero (a : EDouble) : a.add (EDouble.val 0) = a := by
  cases a <;> simp [EDouble.add]

@[simp] theorem EDouble.val_zero_add (a : EDouble) : (EDouble.val 0).add a = a := by
  cases a <;> simp [EDouble.add]

theorem pathCost_append (es fs : List Edge) :
    pathCost (es ++ fs) = (pathCost es).add (pathCost fs) := by
  induction es with
  | nil => simp
  | cons e es ih => simp [ih, EDouble.add_assoc]

/-- All drive times in the graph are nonnegative (or the `INF`
sentinel), as the loader guarantees and the claims assume. -/
def NonnegDrive (g : Graph) : Prop :=
  ∀ e ∈ g.edges, e.driveTime.Nonneg

/-- All walk times in the graph are nonnegative (or `INF`). -/
def NonnegWalk (g : Graph) : Prop :=
  ∀ e ∈ g.edges, e.walkTime.Nonneg

instance : DecidablePred NonnegDrive := fun g =>
  inferInstanceAs (Decidable (∀ e ∈ g.edges, e.driveTime.Nonneg))

instance : DecidablePred NonnegWalk := fun g =>
  inferInstanceAs (Decidable (∀ e ∈ g.edges, e.walkTime.Nonneg))

/-- Structural wellformedness maintained by the construction API:
vertex ids are unique, edge identities are unique, and no edge dangles. -/
def Graph.WF (g : Graph) : Prop :=
  (g.vertices.map (fun v => v.info)).Nodup ∧
  (g.edges.map (fun e => e.eid)).Nodup ∧
  ∀ e ∈ g.edges, (g.findVertex e.orig).isSome ∧ (g.findVertex e.dest).isSome

instance : DecidablePred Graph.WF := fun g =>
  inferInstanceAs (Decidable (_ ∧ _ ∧ _))

theorem DrivePath.edges_mem {g : Graph} {a b : VId} {es : List Edge}
    (h : DrivePath g a b es) : ∀ e ∈ es, e ∈ g.edges := by
  induction h with
  | nil => simp
  | cons e he hu hrest ih =>
    intro e' he'
    rcases List.mem_cons.mp he' with rfl | h' <;> [exact he; exact ih e' h']

theorem DrivePath.edges_usable {g : Graph} {a b : VId} {es : List Edge}
    (h : DrivePath g a b es) : ∀ e ∈ es, usableDrive g e := by
  induction h with
  | nil => simp
  | cons e he hu hrest ih =>
    intro e' he'
    rcases List.mem_cons.mp he' with rfl | h' <;> [exact hu; exact ih e' h']

theorem pathCost_ne_inf {es : List Edge}
    (h : ∀ e ∈ es, e.driveTime ≠ EDouble.inf) : pathCost es ≠ EDouble.inf := by
  induction es with
  | nil => simp
  | cons e es ih =>
    have he := h e (List.mem_cons_self _ _)
    have hrest := ih (fun e' he' => h e' (List.mem_cons_of_mem _ he'))
    cases hd : e.driveTime with
    | inf => exact absurd hd he
    | val q =>
      cases hc : pathCost es with
      | inf => exact absurd hc hrest
      | val q' => simp [hd, hc, EDouble.add]

theorem DrivePath.cost_ne_inf {g : Graph} {a b : VId} {es : List Edge}
    (h : DrivePath g a b es) : pathCost es ≠ EDouble.inf :=
  pathCost_ne_inf (fun e he => (h.edges_usable e he).1)

theorem DrivePath.cost_nonneg {g : Graph} {a b : VId} {es : List Edge}
    (hnn : NonnegDrive g) (h : DrivePath g a b es) : (pathCost es).Nonneg := by
  induction h with
  | nil => simp [EDouble.Nonneg]
  | cons e he hu hrest ih =>
    exact EDouble.add_nonneg (hnn e he) ih

theorem DrivePath.append {g : Graph} {a m b : VId} {es fs : List Edge}
    (h1 : DrivePath g a m es) (h2 : DrivePath g m b fs) :
    DrivePath g a b (es ++ fs) := by
  induction h1 with
  | nil => simpa using h2
  | cons e he hu hrest ih => exact DrivePath.cons e he hu (ih h2)

theorem DrivePath.snoc {g : Graph} {a : VId} {es : List Edge} {e : Edge}
    (h1 : DrivePath g a e.orig es) (he : e ∈ g.edges) (hu : usableDrive g e) :
    DrivePath g a e.dest (es ++ [e]) :=
  h1.append (DrivePath.cons e he hu (DrivePath.nil e.dest))

theorem DrivePath.nil_inv {g : Graph} {a b : VId} (h : DrivePath g a b []) : a = b := by
  cases h; rfl

/-- Inversion of a path at its first edge. -/
theorem DrivePath.cons_inv {g : Graph} {a b : VId} {e : Edge} {es : List Edge}
    (h : DrivePath g a b (e :: es)) :
    a = e.orig ∧ e ∈ g.edges ∧ usableDrive g e ∧ DrivePath g e.dest b es := by
  cases h with
  | cons _ he hu hrest => exact ⟨rfl, he, hu, hrest⟩

/-- Decomposition of a path at its last edge. -/
theorem DrivePath.snoc_inv {g : Graph} {a b : VId} {es : List Edge} {e : Edge}
    (h : DrivePath g a b (es ++ [e])) :
    DrivePath g a e.orig es ∧ e ∈ g.edges ∧ usableDrive g e ∧ e.dest = b := by
  induction es generalizing a with
  | nil =>
    rw [List.nil_append] at h
    obtain ⟨ha, he, hu, hrest⟩ := h.cons_inv
    have hb := hrest.nil_inv
    subst ha
    exact ⟨DrivePath.nil _, he, hu, hb⟩
  | cons f fs ih =>
    obtain ⟨ha, hf, hfu, hrest⟩ := h.cons_inv
    obtain ⟨h1, h2, h3, h4⟩ := ih hrest
    subst ha
    exact ⟨DrivePath.cons f hf hfu h1, h2, h3, h4⟩

/-! ## Properties of the priority-queue extraction -/

theorem popMin_none_iff (dist : VId → EDouble) (l : List VId) :
    popMin dist l = none ↔ l = [] := by
  cases l with
  | nil => simp [popMin]
  | cons x xs =>
    simp only [popMin]
    cases popMin dist xs with
    | none => simp
    | some p =>
      obtain ⟨m, rest⟩ := p
      by_cases h : (dist m).blt (dist x) <;> simp [h]

/-- The extracted element splits the queue: the remainder is the queue
with that one occurrence removed, in order. -/
theorem popMin_split {dist : VId → EDouble} {l rest : List VId} {u : VId}
    (h : popMin dist l = some (u, rest)) :
    ∃ l1 l2, l = l1 ++ u :: l2 ∧ rest = l1 ++ l2 := by
  induction l generalizing u rest with
  | nil => simp [popMin] at h
  | cons x xs ih =>
    simp only [popMin] at h
    cases hxs : popMin dist xs with
    | none =>
      rw [hxs] at h
      have : xs = [] := (popMin_none_iff dist xs).mp hxs
      subst this
      simp at h
      obtain ⟨rfl, rfl⟩ := h
      exact ⟨[], [], rfl, rfl⟩
    | some p =>
      obtain ⟨m, mrest⟩ := p
      rw [hxs] at h
      by_cases hb : (dist m).blt (dist x)
      · simp [hb] at h
        obtain ⟨rfl, rfl⟩ := h
        obtain ⟨l1, l2, hl, hr⟩ := ih hxs
        exact ⟨x :: l1, l2, by simp [hl], by simp [hr]⟩
      · simp [hb] at h
        obtain ⟨rfl, rfl⟩ := h
        exact ⟨[], xs, rfl, rfl⟩

theorem popMin_mem {dist : VId → EDouble} {l rest : List VId} {u : VId}
    (h : popMin dist l = some (u, rest)) : u ∈ l := by
  obtain ⟨l1, l2, hl, _⟩ := popMin_split h
  simp [hl]

theorem popMin_length {dist : VId → EDouble} {l rest : List VId} {u : VId}
    (h : popMin dist l = some (u, rest)) : l.length = rest.length + 1 := by
  obtain ⟨l1, l2, hl, hr⟩ := popMin_split h
  simp [hl, hr]; omega

theorem popMin_rest_subset {dist : VId → EDouble} {l rest : List VId} {u : VId}
    (h : popMin dist l = some (u, rest)) : ∀ v ∈ rest, v ∈ l := by
  obtain ⟨l1, l2, hl, hr⟩ := popMin_split h
  intro v hv
  rw [hr] at hv
  rw [hl]
  rcases List.mem_append.mp hv with h' | h'
  · exact List.mem_append.mpr (Or.inl h')
  · exact List.mem_append.mpr (Or.inr (List.mem_cons_of_mem _ h'))

theorem popMin_mem_cases {dist : VId → EDouble} {l rest : List VId} {u v : VId}
    (h : popMin dist l = some (u, rest)) (hv : v ∈ l) : v = u ∨ v ∈ rest := by
  obtain ⟨l1, l2, hl, hr⟩ := popMin_split h
  subst hl; subst hr
  rcases List.mem_append.mp hv with h' | h'
  · exact Or.inr (List.mem_append.mpr (Or.inl h'))
  · rcases List.mem_cons.mp h' with rfl | h''
    · exact Or.inl rfl
    · exact Or.inr (List.mem_append.mpr (Or.inr h''))

/-- The extracted element has minimal current distance. -/
theorem popMin_min {dist : VId → EDouble} {l rest : List VId} {u : VId}
    (h : popMin dist l = some (u, rest)) : ∀ v ∈ l, dist u ≤ dist v := by
  induction l generalizing u rest with
  | nil => simp [popMin] at h
  | cons x xs ih =>
    simp only [popMin] at h
    cases hxs : popMin dist xs with
    | none =>
      rw [hxs] at h
      simp at h
      obtain ⟨rfl, _⟩ := h
      have : xs = [] := (popMin_none_iff dist xs).mp hxs
      subst this
      intro v hv
      simp at hv
      subst hv
      exact EDouble.le_refl _
    | some p =>
      obtain ⟨m, mrest⟩ := p
      rw [hxs] at h
      by_cases hb : (dist m).blt (dist x)
      · simp [hb] at h
        obtain ⟨rfl, rfl⟩ := h
        intro v hv
        rcases List.mem_cons.mp hv with rfl | hv'
        · exact EDouble.le_of_blt hb
        · exact ih hxs v hv'
      · simp [hb] at h
        obtain ⟨rfl, rfl⟩ := h
        intro v hv
        rcases List.mem_cons.mp hv with rfl | hv'
        · exact EDouble.le_refl _
        · exact EDouble.le_trans (EDouble.blt_eq_false_iff.mp (by simpa using hb))
            (ih hxs v hv')

/-! ## Further order lemmas -/

theorem EDouble.not_le_of_blt {a b : EDouble} (h : a.blt b = true) : ¬ (b ≤ a) := by
  cases a <;> cases b <;> simp_all
  all_goals omega

theorem EDouble.add_ne_inf_of {a b : EDouble} (ha : a ≠ EDouble.inf)
    (hb : b ≠ EDouble.inf) : a.add b ≠ EDouble.inf := by
  cases a <;> cases b <;> simp_all [EDouble.add]

theorem EDouble.blt_zero_of_nonneg {a : EDouble} (ha : a.Nonneg) :
    a.blt (EDouble.val 0) = false := by
  cases a <;> simp_all [EDouble.Nonneg, EDouble.blt]
  all_goals omega

theorem EDouble.ne_inf_of_le_ne_inf {a b : EDouble} (h : a ≤ b)
    (hb : b ≠ EDouble.inf) : a ≠ EDouble.inf := by
  cases a <;> cases b <;> simp_all

theorem Graph.adj_mem {g : Graph} {v : VId} {e : Edge} :
    e ∈ g.adj v ↔ e ∈ g.edges ∧ e.orig = v := by
  simp [Graph.adj]

/-- The `continue` guard of the driving relaxation is exactly
non-usability. -/
theorem drive_guard_iff (g : Graph) (e : Edge) :
    (e.driveTime = EDouble.inf ∨ e.available = false ∨ g.destAvailable e = false) ↔
      ¬ usableDrive g e := by
  simp only [usableDrive, not_and_or, not_not, Bool.not_eq_true]

/-! ## The driving-search invariant -/

/-- Invariant pieces that survive to the final state of the search:
semantics of `dist` and of the predecessor links, plus minimality of
the distances of visited vertices. -/
structure DBase (g : Graph) (o : VId) (st : DState) : Prop where
  dist_o : st.dist o = EDouble.val 0
  dist_nonneg : ∀ v, (st.dist v).Nonneg
  dist_sound : ∀ v, st.dist v ≠ EDouble.inf →
      ∃ es, DrivePath g o v es ∧ pathCost es = st.dist v
  pred_none : ∀ v, st.pred v = none → v = o ∨ st.dist v = EDouble.inf
  pred_some : ∀ v e, st.pred v = some e →
      e ∈ g.edges ∧ usableDrive g e ∧ e.dest = v ∧ e.orig ∈ st.visited ∧
      st.dist v = (st.dist e.orig).add e.driveTime
  pred_order : ∀ j v, v ∈ st.visited.drop j → ∀ e, st.pred v = some e →
      e.orig ∈ st.visited.drop (j + 1)
  visited_dist : ∀ v ∈ st.visited, st.dist v ≠ EDouble.inf
  visited_nodup : st.visited.Nodup
  visited_mem : ∀ v ∈ st.visited, (g.findVertex v).isSome
  m1 : ∀ v ∈ st.visited, ∀ es, DrivePath g o v es → st.dist v ≤ pathCost es

/-- The invariant holding while the newly visited vertex `u` relaxes
its outgoing edges (`r1` excludes `u`, whose closure is being built). -/
structure LInv (g : Graph) (o u : VId) (st : DState) : Prop where
  base : DBase g o st
  u_vis : u ∈ st.visited
  u_max : ∀ a ∈ st.visited, st.dist a ≤ st.dist u
  q1 : ∀ v, v ∉ st.visited → st.dist v ≠ EDouble.inf → v ∈ st.pq
  q2 : ∀ a ∈ st.visited, ∀ b, b ∉ st.visited → st.dist a ≤ st.dist b
  r1 : ∀ a ∈ st.visited, a ≠ u → ∀ e ∈ g.adj a, usableDrive g e →
      st.dist e.dest ≤ (st.dist a).add e.driveTime
  orig_in : o ∈ st.visited ∨ o ∈ st.pq
  pq_dist : ∀ v ∈ st.pq, st.dist v ≠ EDouble.inf
  pq_mem : ∀ v ∈ st.pq, (g.findVertex v).isSome

/-- One improving relaxation preserves the relaxation invariant. -/
theorem relax_update_LInv (g : Graph) (o u : VId) (hnn : NonnegDrive g)
    (hwfd : ∀ e ∈ g.edges, (g.findVertex e.dest).isSome)
    (st : DState) (e : Edge) (hI : LInv g o u st)
    (he : e ∈ g.adj u) (hu : usableDrive g e)
    (himp : ((st.dist u).add e.driveTime).blt (st.dist e.dest) = true) :
    LInv g o u
      { st with
        dist := fun v => if v = e.dest then (st.dist u).add e.driveTime else st.dist v
        pred := fun v => if v = e.dest then some e else st.pred v
        pq := st.pq ++ [e.dest] } := by
  obtain ⟨hB, hu_vis, hu_max, hq1, hq2, hr1, horig, hpqd, hpqm⟩ := hI
  obtain ⟨heE, horigU⟩ := Graph.adj_mem.mp he
  have hwE : e.driveTime.Nonneg := hnn e heE
  have hdu_fin : st.dist u ≠ EDouble.inf := hB.visited_dist u hu_vis
  have hnew_fin : (st.dist u).add e.driveTime ≠ EDouble.inf :=
    EDouble.add_ne_inf_of hdu_fin hu.1
  have hnew_nonneg : ((st.dist u).add e.driveTime).Nonneg :=
    EDouble.add_nonneg (hB.dist_nonneg u) hwE
  have hdu_le_new : st.dist u ≤ (st.dist u).add e.driveTime :=
    EDouble.le_add_of_nonneg hwE
  have hdest_nvis : e.dest ∉ st.visited := by
    intro hmem
    exact EDouble.not_le_of_blt himp
      (EDouble.le_trans (hu_max e.dest hmem) hdu_le_new)
  have hdest_ne_o : e.dest ≠ o := by
    intro hEq
    have : ((st.dist u).add e.driveTime).blt (EDouble.val 0) = true := by
      rw [← hB.dist_o, ← hEq]; exact himp
    rw [EDouble.blt_zero_of_nonneg hnew_nonneg] at this
    exact Bool.false_ne_true this
  have hu_ne_dest : u ≠ e.dest := fun hEq => hdest_nvis (hEq ▸ hu_vis)
  have hvis_ne_dest : ∀ a ∈ st.visited, a ≠ e.dest :=
    fun a ha hEq => hdest_nvis (hEq ▸ ha)
  refine ⟨⟨?_, ?_, ?_, ?_, ?_, ?_, ?_, hB.visited_nodup, hB.visited_mem, ?_⟩,
    ?_, ?_, ?_, ?_, ?_, ?_, ?_, ?_⟩
  · simpa [Ne.symm hdest_ne_o] using hB.dist_o
  · intro v
    by_cases hv : v = e.dest <;> simp [hv, hnew_nonneg, hB.dist_nonneg v]
  · intro v hv
    by_cases hveq : v = e.dest
    · subst hveq
      obtain ⟨es, hp, hc⟩ := hB.dist_sound u hdu_fin
      have hp' : DrivePath g o e.orig es := by rw [horigU]; exact hp
      refine ⟨es ++ [e], hp'.snoc heE hu, ?_⟩
      simp [pathCost_append, hc]
    · simp only [hveq, if_false] at hv ⊢
      exact hB.dist_sound v hv
  · intro v hv
    by_cases hveq : v = e.dest
    · simp [hveq] at hv
    · simp only [hveq, if_false] at hv ⊢
      exact hB.pred_none v hv
  · intro v e' hv
    by_cases hveq : v = e.dest
    · subst hveq
      simp only [if_pos rfl] at hv ⊢
      cases hv
      refine ⟨heE, hu, rfl, by rw [horigU]; exact hu_vis, ?_⟩
      simp [horigU, hu_ne_dest]
    · simp only [hveq, if_false] at hv ⊢
      obtain ⟨h1, h2, h3, h4, h5⟩ := hB.pred_some v e' hv
      refine ⟨h1, h2, h3, h4, ?_⟩
      have hne : e'.orig ≠ e.dest := hvis_ne_dest e'.orig h4
      simpa [hne] using h5
  · intro j v hv e' hp
    have hvne : v ≠ e.dest := hvis_ne_dest v (List.mem_of_mem_drop hv)
    simp only [hvne, if_false] at hp
    exact hB.pred_order j v hv e' hp
  · intro v hv
    have hne : v ≠ e.dest := hvis_ne_dest v hv
    simpa [hne] using hB.visited_dist v hv
  · intro v hv es hp
    have hne : v ≠ e.dest := hvis_ne_dest v hv
    simpa [hne] using hB.m1 v hv es hp
  · exact hu_vis
  · intro a ha
    have hne : a ≠ e.dest := hvis_ne_dest a ha
    simpa [hne, hu_ne_dest] using hu_max a ha
  · intro v hv hfin
    by_cases hveq : v = e.dest
    · subst hveq; simp
    · simp only [hveq, if_false] at hfin
      exact List.mem_append.mpr (Or.inl (hq1 v hv hfin))
  · intro a ha b hb
    have hne : a ≠ e.dest := hvis_ne_dest a ha
    by_cases hbeq : b = e.dest
    · subst hbeq
      simpa [hne] using EDouble.le_trans (hu_max a ha) hdu_le_new
    · simpa [hne, hbeq] using hq2 a ha b hb
  · intro a ha hane e' he' hue'
    have hane_dest : a ≠ e.dest := hvis_ne_dest a ha
    by_cases hd : e'.dest = e.dest
    · have : (st.dist u).add e.driveTime ≤ (st.dist a).add e'.driveTime :=
        EDouble.le_trans (EDouble.le_of_blt himp)
          (le_of_eq_of_le (by rw [hd]) (hr1 a ha hane e' he' hue'))
      simpa [hane_dest, hd] using this
    · simpa [hane_dest, hd] using hr1 a ha hane e' he' hue'
  · rcases horig with h | h
    · exact Or.inl h
    · exact Or.inr (List.mem_append.mpr (Or.inl h))
  · intro v hv
    rcases List.mem_append.mp hv with h | h
    · by_cases hveq : v = e.dest
      · simp [hveq, hnew_fin]
      · simp only [hveq, if_false]
        exact hpqd v h
    · simp at h
      simp [h, hnew_fin]
  · intro v hv
    rcases List.mem_append.mp hv with h | h
    · exact hpqm v h
    · simp at h
      subst h
      exact hwfd e heE

/-- Effect of the whole relaxation loop of a visit of `u`: the
invariant is preserved, visited ids and the distance of `u` are
unchanged, distances only decrease, every usable processed edge ends up
closed (relaxed), and at most one queue push happens per edge. -/
theorem relaxDriving_spec (g : Graph) (o u : VId) (hnn : NonnegDrive g)
    (hwfd : ∀ e ∈ g.edges, (g.findVertex e.dest).isSome) :
    ∀ (es : List Edge) (st : DState), (∀ e ∈ es, e ∈ g.adj u) → LInv g o u st →
    LInv g o u (relaxDriving g u es st) ∧
    (relaxDriving g u es st).visited = st.visited ∧
    (relaxDriving g u es st).dist u = st.dist u ∧
    (∀ v, (relaxDriving g u es st).dist v ≤ st.dist v) ∧
    (∀ e ∈ es, usableDrive g e →
        (relaxDriving g u es st).dist e.dest ≤
          ((relaxDriving g u es st).dist u).add e.driveTime) ∧
    (relaxDriving g u es st).pq.length ≤ st.pq.length + es.length := by
  intro es
  induction es with
  | nil =>
    intro st _ hI
    exact ⟨hI, rfl, rfl, fun v => EDouble.le_refl _, by simp, by simp [relaxDriving]⟩
  | cons e es ih =>
    intro st hsub hI
    have headj : e ∈ g.adj u := hsub e (List.mem_cons_self _ _)
    have hsub' : ∀ e' ∈ es, e' ∈ g.adj u := fun e' h => hsub e' (List.mem_cons_of_mem _ h)
    by_cases hg : e.driveTime = EDouble.inf ∨ e.available = false ∨
        g.destAvailable e = false
    · -- the guard skips this edge
      have hstep : relaxDriving g u (e :: es) st = relaxDriving g u es st := by
        simp only [relaxDriving, if_pos hg]
      obtain ⟨hI', hv', hdu', hle', hcl', hpq'⟩ := ih st hsub' hI
      rw [hstep]
      refine ⟨hI', hv', hdu', hle', ?_, by simp only [List.length_cons]; omega⟩
      intro e' he' hu'
      rcases List.mem_cons.mp he' with rfl | h'
      · exact absurd hu' ((drive_guard_iff g e').mp hg)
      · exact hcl' e' h' hu'
    · have husable : usableDrive g e := by
        by_contra hc
        exact hg ((drive_guard_iff g e).mpr hc)
      by_cases himp : ((st.dist u).add e.driveTime).blt (st.dist e.dest) = true
      · -- improving relaxation
        set st2 : DState :=
          { st with
            dist := fun v => if v = e.dest then (st.dist u).add e.driveTime else st.dist v
            pred := fun v => if v = e.dest then some e else st.pred v
            pq := st.pq ++ [e.dest] } with hst2
        have hstep : relaxDriving g u (e :: es) st = relaxDriving g u es st2 := by
          rw [relaxDriving, if_neg hg, if_pos himp]
        have hI2 : LInv g o u st2 := relax_update_LInv g o u hnn hwfd st e hI headj husable himp
        obtain ⟨hI', hv', hdu', hle', hcl', hpq'⟩ := ih st2 hsub' hI2
        have hu_ne_dest : u ≠ e.dest := by
          intro hEq
          have hw : e.driveTime.Nonneg := hnn e (Graph.adj_mem.mp headj).1
          have hcontra : st.dist e.dest ≤ (st.dist u).add e.driveTime := by
            rw [← hEq]
            exact EDouble.le_add_of_nonneg hw
          exact EDouble.not_le_of_blt himp hcontra
        have hdu2 : st2.dist u = st.dist u := by
          simp [hst2, hu_ne_dest]
        rw [hstep]
        refine ⟨hI', by rw [hv'], by rw [hdu', hdu2], ?_, ?_, ?_⟩
        · intro v
          refine EDouble.le_trans (hle' v) ?_
          by_cases hveq : v = e.dest
          · subst hveq
            simpa [hst2] using EDouble.le_of_blt himp
          · simp [hst2, hveq]
            exact EDouble.le_refl _
        · intro e' he' hue'
          rcases List.mem_cons.mp he' with rfl | h'
          · refine EDouble.le_trans (hle' e'.dest) ?_
            have : st2.dist e'.dest = (st.dist u).add e'.driveTime := by simp [hst2]
            rw [this, hdu', hdu2]
            exact EDouble.le_refl _
          · exact hcl' e' h' hue'
        · have hlen2 : st2.pq.length = st.pq.length + 1 := by simp [hst2]
          simp only [List.length_cons]
          omega
      · -- usable but no improvement
        have hstep : relaxDriving g u (e :: es) st = relaxDriving g u es st := by
          rw [relaxDriving, if_neg hg, if_neg (by simpa using himp)]
        obtain ⟨hI', hv', hdu', hle', hcl', hpq'⟩ := ih st hsub' hI
        rw [hstep]
        refine ⟨hI', hv', hdu', hle', ?_, by simp only [List.length_cons]; omega⟩
        intro e' he' hue'
        rcases List.mem_cons.mp he' with rfl | h'
        · have hstop : st.dist e'.dest ≤ (st.dist u).add e'.driveTime :=
            EDouble.blt_eq_false_iff.mp (by simpa using himp)
          refine EDouble.le_trans (hle' e'.dest) ?_
          rw [hdu']
          exact hstop
        · exact hcl' e' h' hue'

/-- The invariant at the head of each `while` iteration. -/
structure DInv (g : Graph) (o : VId) (st : DState) : Prop where
  base : DBase g o st
  q1 : ∀ v, v ∉ st.visited → st.dist v ≠ EDouble.inf → v ∈ st.pq
  q2 : ∀ a ∈ st.visited, ∀ b, b ∉ st.visited → st.dist a ≤ st.dist b
  r1 : ∀ a ∈ st.visited, ∀ e ∈ g.adj a, usableDrive g e →
      st.dist e.dest ≤ (st.dist a).add e.driveTime
  orig_in : o ∈ st.visited ∨ o ∈ st.pq
  pq_dist : ∀ v ∈ st.pq, st.dist v ≠ EDouble.inf
  pq_mem : ∀ v ∈ st.pq, (g.findVertex v).isSome

@[simp] theorem pathCost_single (e : Edge) : pathCost [e] = e.driveTime := by
  simp [pathCost]

/-- The frontier/cut lemma: every valid path from the origin either ends
at a visited vertex whose distance undercuts it, or crosses the queue at
a vertex whose distance undercuts it. -/
theorem frontier (g : Graph) (o : VId) (hnn : NonnegDrive g) (st : DState)
    (hI : DInv g o st) :
    ∀ (x : VId) (es : List Edge), DrivePath g o x es →
    (x ∈ st.visited ∧ st.dist x ≤ pathCost es) ∨
    (∃ y ∈ st.pq, st.dist y ≤ pathCost es) := by
  intro x es
  induction es using List.reverseRecOn generalizing x with
  | nil =>
    intro hp
    have hx := hp.nil_inv
    subst hx
    rcases hI.orig_in with h | h
    · refine Or.inl ⟨h, ?_⟩
      rw [hI.base.dist_o]
      exact EDouble.le_refl _
    · refine Or.inr ⟨o, h, ?_⟩
      rw [hI.base.dist_o]
      exact EDouble.le_refl _
  | append_singleton es e ih =>
    intro hp
    have hcostfin : pathCost (es ++ [e]) ≠ EDouble.inf := hp.cost_ne_inf
    obtain ⟨hp', heE, hue, hdest⟩ := hp.snoc_inv
    subst hdest
    have hw : e.driveTime.Nonneg := hnn e heE
    rcases ih e.orig hp' with ⟨hvis, hle⟩ | ⟨y, hy, hle⟩
    · have hclose : st.dist e.dest ≤ (st.dist e.orig).add e.driveTime :=
        hI.r1 e.orig hvis e (Graph.adj_mem.mpr ⟨heE, rfl⟩) hue
      have hle2 : st.dist e.dest ≤ pathCost (es ++ [e]) := by
        rw [pathCost_append, pathCost_single]
        exact EDouble.le_trans hclose (EDouble.add_le_add_right _ hle)
      by_cases hxv : e.dest ∈ st.visited
      · exact Or.inl ⟨hxv, hle2⟩
      · have hfin : st.dist e.dest ≠ EDouble.inf :=
          EDouble.ne_inf_of_le_ne_inf hle2 hcostfin
        exact Or.inr ⟨e.dest, hI.q1 e.dest hxv hfin, hle2⟩
    · refine Or.inr ⟨y, hy, ?_⟩
      rw [pathCost_append, pathCost_single]
      exact EDouble.le_trans hle (EDouble.le_add_of_nonneg hw)

/-- Popping an already-visited vertex preserves the loop invariant. -/
theorem skip_DInv (g : Graph) (o u : VId) {rest : List VId} (st : DState)
    (hI : DInv g o st) (hpop : popMin st.dist st.pq = some (u, rest))
    (hu : u ∈ st.visited) :
    DInv g o { st with pq := rest } := by
  obtain ⟨hB, hq1, hq2, hr1, horig, hpqd, hpqm⟩ := hI
  refine ⟨⟨hB.dist_o, hB.dist_nonneg, hB.dist_sound, hB.pred_none, hB.pred_some,
    hB.pred_order, hB.visited_dist, hB.visited_nodup, hB.visited_mem, hB.m1⟩,
    ?_, hq2, hr1, ?_, ?_, ?_⟩
  · intro v hv hfin
    rcases popMin_mem_cases hpop (hq1 v hv hfin) with rfl | h
    · exact absurd hu hv
    · exact h
  · rcases horig with h | h
    · exact Or.inl h
    · rcases popMin_mem_cases hpop h with rfl | h'
      · exact Or.inl hu
      · exact Or.inr h'
  · exact fun v hv => hpqd v (popMin_rest_subset hpop v hv)
  · exact fun v hv => hpqm v (popMin_rest_subset hpop v hv)

/-- Marking the freshly popped minimum visited establishes the
relaxation invariant for it (its distance is already minimal over all
valid paths — the cut argument). -/
theorem visit_LInv (g : Graph) (o u : VId) {rest : List VId}
    (hnn : NonnegDrive g) (st : DState)
    (hI : DInv g o st) (hpop : popMin st.dist st.pq = some (u, rest))
    (hu : u ∉ st.visited) :
    LInv g o u { st with visited := u :: st.visited, pq := rest } := by
  have hupq : u ∈ st.pq := popMin_mem hpop
  have hufin : st.dist u ≠ EDouble.inf := hI.pq_dist u hupq
  have hmin : ∀ v ∈ st.pq, st.dist u ≤ st.dist v := popMin_min hpop
  have hm1u : ∀ es, DrivePath g o u es → st.dist u ≤ pathCost es := by
    intro es hp
    rcases frontier g o hnn st hI u es hp with ⟨hvis, _⟩ | ⟨y, hy, hle⟩
    · exact absurd hvis hu
    · exact EDouble.le_trans (hmin y hy) hle
  obtain ⟨hB, hq1, hq2, hr1, horig, hpqd, hpqm⟩ := hI
  refine ⟨⟨hB.dist_o, hB.dist_nonneg, hB.dist_sound, hB.pred_none, ?_, ?_, ?_,
    List.nodup_cons.mpr ⟨hu, hB.visited_nodup⟩, ?_, ?_⟩,
    ?_, ?_, ?_, ?_, ?_, ?_, ?_, ?_⟩
  · intro v e hv
    obtain ⟨h1, h2, h3, h4, h5⟩ := hB.pred_some v e hv
    exact ⟨h1, h2, h3, List.mem_cons_of_mem _ h4, h5⟩
  · intro j v hv e hp
    cases j with
    | zero =>
      simp only [List.drop_zero] at hv
      rcases List.mem_cons.mp hv with rfl | hv'
      · have := (hB.pred_some v e hp).2.2.2.1
        simpa using this
      · have := hB.pred_order 0 v (by simpa using hv') e hp
        simpa using List.mem_of_mem_drop this
    | succ j =>
      simp only [List.drop_succ_cons] at hv ⊢
      exact hB.pred_order j v hv e hp
  · intro v hv
    rcases List.mem_cons.mp hv with rfl | hv'
    · exact hufin
    · exact hB.visited_dist v hv'
  · intro v hv
    rcases List.mem_cons.mp hv with rfl | hv'
    · exact hpqm v hupq
    · exact hB.visited_mem v hv'
  · intro v hv es hp
    rcases List.mem_cons.mp hv with rfl | hv'
    · exact hm1u es hp
    · exact hB.m1 v hv' es hp
  · exact List.mem_cons_self _ _
  · intro a ha
    rcases List.mem_cons.mp ha with rfl | ha'
    · exact EDouble.le_refl _
    · exact hq2 a ha' u hu
  · intro v hv hfin
    have hvne : v ≠ u := fun hEq => hv (hEq ▸ List.mem_cons_self _ _)
    have hv' : v ∉ st.visited := fun h => hv (List.mem_cons_of_mem _ h)
    rcases popMin_mem_cases hpop (hq1 v hv' hfin) with rfl | h
    · exact absurd rfl hvne
    · exact h
  · intro a ha b hb
    have hb' : b ∉ st.visited := fun h => hb (List.mem_cons_of_mem _ h)
    rcases List.mem_cons.mp ha with rfl | ha'
    · by_cases hbf : st.dist b = EDouble.inf
      · rw [hbf]
        exact EDouble.le_inf _
      · exact hmin b (hq1 b hb' hbf)
    · exact hq2 a ha' b hb'
  · intro a ha hane e he hue
    rcases List.mem_cons.mp ha with rfl | ha'
    · exact absurd rfl hane
    · exact hr1 a ha' e he hue
  · rcases horig with h | h
    · exact Or.inl (List.mem_cons_of_mem _ h)
    · rcases popMin_mem_cases hpop h with rfl | h'
      · exact Or.inl (List.mem_cons_self _ _)
      · exact Or.inr h'
  · exact fun v hv => hpqd v (popMin_rest_subset hpop v hv)
  · exact fun v hv => hpqm v (popMin_rest_subset hpop v hv)

/-- After the fold over `u`'s adjacency list, the full loop invariant
holds again. -/
theorem relaxed_DInv (g : Graph) (o u : VId) (st : DState)
    (hI : LInv g o u (relaxDriving g u (g.adj u) st))
    (hclosed : ∀ e ∈ g.adj u, usableDrive g e →
        (relaxDriving g u (g.adj u) st).dist e.dest ≤
          ((relaxDriving g u (g.adj u) st).dist u).add e.driveTime) :
    DInv g o (relaxDriving g u (g.adj u) st) := by
  obtain ⟨hB, hu_vis, hu_max, hq1, hq2, hr1, horig, hpqd, hpqm⟩ := hI
  refine ⟨hB, hq1, hq2, ?_, horig, hpqd, hpqm⟩
  intro a ha e he hue
  by_cases hau : a = u
  · subst hau
    exact hclosed e he hue
  · exact hr1 a ha hau e he hue

/-! ## Termination potential of the search loop -/

/-- Remaining work charged to the unvisited vertices: one visit plus one
possible push per outgoing edge. -/
def unvisitedWeight (g : Graph) (vis : List VId) : Nat :=
  ((g.vertices.filter (fun v => v.info ∉ vis)).map
    (fun v => 1 + (g.adj v.info).length)).sum

/-- The loop potential: queue length plus remaining work. -/
def phi (g : Graph) (st : DState) : Nat :=
  st.pq.length + unvisitedWeight g st.visited

theorem sum_map_le_sum_map_of_sublist {α : Type} {l1 l2 : List α}
    (h : l1.Sublist l2) (f : α → Nat) : (l1.map f).sum ≤ (l2.map f).sum := by
  induction h with
  | slnil => exact Nat.le_refl _
  | cons a h ih => simp only [List.map_cons, List.sum_cons]; omega
  | cons₂ a h ih => simp only [List.map_cons, List.sum_cons]; omega

theorem filter_strengthen_sublist {α : Type} (l : List α) (p q : α → Bool)
    (himp : ∀ a, p a = true → q a = true) : (l.filter p).Sublist (l.filter q) := by
  induction l with
  | nil => simp
  | cons a l ih =>
    by_cases hp : p a = true
    · simp [hp, himp a hp]
      exact ih
    · simp only [List.filter_cons]
      rw [if_neg hp]
      by_cases hq : q a = true
      · rw [if_pos hq]
        exact ih.cons a
      · rw [if_neg hq]
        exact ih

/-- Visiting a vertex that has a record removes its full charge from the
unvisited weight. -/
theorem unvisitedWeight_visit (g : Graph) {u : VId} {vis : List VId}
    (hmem : ∃ v ∈ g.vertices, v.info = u) (hu : u ∉ vis) :
    unvisitedWeight g (u :: vis) + (1 + (g.adj u).length) ≤
      unvisitedWeight g vis := by
  unfold unvisitedWeight
  have haux : ∀ L : List Vertex, (∃ v ∈ L, v.info = u) →
      ((L.filter (fun v => v.info ∉ u :: vis)).map
        (fun v => 1 + (g.adj v.info).length)).sum + (1 + (g.adj u).length) ≤
      ((L.filter (fun v => v.info ∉ vis)).map
        (fun v => 1 + (g.adj v.info).length)).sum := by
    intro L
    induction L with
    | nil => rintro ⟨v, hv, -⟩; simp at hv
    | cons v0 L ih =>
      rintro ⟨w, hw, hwu⟩
      by_cases h0 : v0.info = u
      · have hkeep : (v0.info ∉ vis) := h0 ▸ hu
        have hdrop : v0.info ∈ u :: vis := by simp [h0]
        simp only [List.filter_cons]
        rw [if_neg (by simp [hdrop]), if_pos (by simpa using hkeep)]
        simp only [List.map_cons, List.sum_cons, h0]
        have hmono : ((L.filter (fun v => v.info ∉ u :: vis)).map
            (fun v => 1 + (g.adj v.info).length)).sum ≤
            ((L.filter (fun v => v.info ∉ vis)).map
              (fun v => 1 + (g.adj v.info).length)).sum :=
          sum_map_le_sum_map_of_sublist
            (filter_strengthen_sublist L _ _ (by
              intro a ha
              simp only [decide_eq_true_eq] at ha ⊢
              intro hmem2
              exact ha (List.mem_cons_of_mem _ hmem2))) _
        omega
      · rcases List.mem_cons.mp hw with rfl | hwL
        · exact absurd hwu h0
        · have hwit : ∃ v ∈ L, v.info = u := ⟨w, hwL, hwu⟩
          by_cases hv0 : v0.info ∈ vis
          · have hin2 : v0.info ∈ u :: vis := List.mem_cons_of_mem _ hv0
            simp only [List.filter_cons]
            rw [if_neg (by simp [hin2]), if_neg (by simp [hv0])]
            exact ih hwit
          · have hnin2 : v0.info ∉ u :: vis := by simp [h0, hv0]
            simp only [List.filter_cons]
            rw [if_pos (by simpa using hnin2), if_pos (by simpa using hv0)]
            simp only [List.map_cons, List.sum_cons]
            have := ih hwit
            omega
  exact haux g.vertices hmem

theorem findVertex_isSome_iff {g : Graph} {u : VId} :
    (g.findVertex u).isSome ↔ ∃ v ∈ g.vertices, v.info = u := by
  simp [Graph.findVertex, List.find?_isSome]

/-- What survives to the state in which the loop stops: the base
invariant, and either the destination was popped or the queue ran dry
with the full invariant. -/
def LoopPost (g : Graph) (o d : VId) (st : DState) : Prop :=
  DBase g o st ∧ (d ∈ st.visited ∨ (st.pq = [] ∧ DInv g o st))

/-- The master lemma: started on any invariant state with fuel at least
the potential, the driving loop ends in a `LoopPost` state (in
particular the fuel never runs out mid-search). -/
theorem loop_master (g : Graph) (o d : VId) (hnn : NonnegDrive g)
    (hwfd : ∀ e ∈ g.edges, (g.findVertex e.dest).isSome) :
    ∀ (fuel : Nat) (st : DState), DInv g o st → phi g st ≤ fuel →
    LoopPost g o d (dijkstraLoopDriving g d fuel st) := by
  intro fuel
  induction fuel with
  | zero =>
    intro st hI hphi
    have hlen : st.pq.length = 0 := by
      have h2 : phi g st = st.pq.length + unvisitedWeight g st.visited := rfl
      omega
    have hpq : st.pq = [] := List.length_eq_zero.mp hlen
    exact ⟨hI.base, Or.inr ⟨hpq, hI⟩⟩
  | succ fuel ih =>
    intro st hI hphi
    cases hpop : popMin st.dist st.pq with
    | none =>
      have hpq : st.pq = [] := (popMin_none_iff _ _).mp hpop
      simp only [dijkstraLoopDriving, hpop]
      exact ⟨hI.base, Or.inr ⟨hpq, hI⟩⟩
    | some p =>
      obtain ⟨u, rest⟩ := p
      have hlen := popMin_length hpop
      by_cases hvis : u ∈ st.visited
      · have hstep : dijkstraLoopDriving g d (fuel + 1) st =
            dijkstraLoopDriving g d fuel { st with pq := rest } := by
          simp only [dijkstraLoopDriving, hpop, if_pos hvis]
        rw [hstep]
        apply ih _ (skip_DInv g o u st hI hpop hvis)
        have h1 : phi g { st with pq := rest } =
            rest.length + unvisitedWeight g st.visited := rfl
        have h2 : phi g st = st.pq.length + unvisitedWeight g st.visited := rfl
        omega
      · have hL : LInv g o u { st with visited := u :: st.visited, pq := rest } :=
          visit_LInv g o u hnn st hI hpop hvis
        by_cases hud : u = d
        · have hstep : dijkstraLoopDriving g d (fuel + 1) st =
              { st with visited := u :: st.visited, pq := rest } := by
            simp only [dijkstraLoopDriving, hpop, if_neg hvis, if_pos hud]
          rw [hstep]
          refine ⟨hL.base, Or.inl ?_⟩
          rw [← hud]
          exact List.mem_cons_self _ _
        · have hstep : dijkstraLoopDriving g d (fuel + 1) st =
              dijkstraLoopDriving g d fuel
                (relaxDriving g u (g.adj u)
                  { st with visited := u :: st.visited, pq := rest }) := by
            simp only [dijkstraLoopDriving, hpop, if_neg hvis, if_neg hud]
          rw [hstep]
          obtain ⟨hI3, hv3, hdu3, hle3, hcl3, hpq3⟩ :=
            relaxDriving_spec g o u hnn hwfd (g.adj u)
              { st with visited := u :: st.visited, pq := rest }
              (fun e he => he) hL
          apply ih _ (relaxed_DInv g o u _ hI3 hcl3)
          -- potential decreases by at least 2
          have hurec : ∃ v ∈ g.vertices, v.info = u :=
            findVertex_isSome_iff.mp (hI.pq_mem u (popMin_mem hpop))
          have hvw := unvisitedWeight_visit g hurec hvis
          have h1 : phi g (relaxDriving g u (g.adj u)
              { st with visited := u :: st.visited, pq := rest }) =
              (relaxDriving g u (g.adj u)
                { st with visited := u :: st.visited, pq := rest }).pq.length +
              unvisitedWeight g (u :: st.visited) := by
            unfold phi
            rw [hv3]
          have h2 : phi g st = st.pq.length + unvisitedWeight g st.visited := rfl
          have h3 : (relaxDriving g u (g.adj u)
              { st with visited := u :: st.visited, pq := rest }).pq.length ≤
              rest.length + (g.adj u).length := hpq3
          omega

/-! ## Fuel sufficiency at the initial state -/

theorem sum_map_one_add {α : Type} (L : List α) (f : α → Nat) :
    (L.map (fun a => 1 + f a)).sum = L.length + (L.map f).sum := by
  induction L with
  | nil => simp
  | cons a L ih => simp only [List.map_cons, List.sum_cons, List.length_cons, ih]; omega

theorem sum_single_count {L : List Vertex}
    (h : (L.map (fun v => v.info)).Nodup) (x : VId) :
    (L.map (fun v => if x = v.info then (1 : Nat) else 0)).sum ≤ 1 := by
  induction L with
  | nil => simp
  | cons v0 L ih =>
    simp only [List.map_cons, List.nodup_cons] at h
    obtain ⟨h0, h1⟩ := h
    by_cases hx : x = v0.info
    · have hz : (L.map (fun v => if x = v.info then (1 : Nat) else 0)).sum = 0 := by
        apply List.sum_eq_zero
        intro n hn
        obtain ⟨v, hv, rfl⟩ := List.mem_map.mp hn
        have hzv : v.info ≠ x := by
          intro hEq
          apply h0
          have hv0v : v0.info = v.info := by rw [← hx]; exact hEq.symm
          rw [hv0v]
          exact List.mem_map_of_mem _ hv
        rw [if_neg (fun hEq2 => hzv hEq2.symm)]
      simp only [List.map_cons, List.sum_cons, if_pos hx, hz]
      omega
    · simp only [List.map_cons, List.sum_cons, if_neg hx]
      simpa using ih h1

theorem sum_map_add_distrib {α : Type} (L : List α) (f1 f2 : α → Nat) :
    (L.map (fun a => f1 a + f2 a)).sum = (L.map f1).sum + (L.map f2).sum := by
  induction L with
  | nil => simp
  | cons a L ih => simp only [List.map_cons, List.sum_cons, ih]; omega

theorem sum_adj_le {L : List Vertex}
    (h : (L.map (fun v => v.info)).Nodup) :
    ∀ es : List Edge,
      (L.map (fun v => (es.filter (fun e => e.orig = v.info)).length)).sum ≤
        es.length := by
  intro es
  induction es with
  | nil =>
    apply Nat.le_of_eq
    apply List.sum_eq_zero
    intro n hn
    obtain ⟨v, _, rfl⟩ := List.mem_map.mp hn
    simp
  | cons e es ih =>
    have hsplit : ∀ v : Vertex,
        ((e :: es).filter (fun e' => e'.orig = v.info)).length =
        (if e.orig = v.info then (1 : Nat) else 0) +
          (es.filter (fun e' => e'.orig = v.info)).length := by
      intro v
      by_cases hc : e.orig = v.info <;> simp [List.filter_cons, hc] <;> try omega
    calc (L.map (fun v => ((e :: es).filter (fun e' => e'.orig = v.info)).length)).sum
        = (L.map (fun v => (if e.orig = v.info then (1 : Nat) else 0) +
            (es.filter (fun e' => e'.orig = v.info)).length)).sum := by
          congr 1
          exact List.map_congr_left (fun v _ => hsplit v)
      _ = (L.map (fun v => if e.orig = v.info then (1 : Nat) else 0)).sum +
          (L.map (fun v => (es.filter (fun e' => e'.orig = v.info)).length)).sum :=
          sum_map_add_distrib L _ _
      _ ≤ 1 + es.length := Nat.add_le_add (sum_single_count h e.orig) ih
      _ = (e :: es).length := by simp only [List.length_cons]; omega

/-- The chosen fuel covers the initial potential. -/
theorem phi_init_le (g : Graph) (o : VId)
    (hnd : (g.vertices.map (fun v => v.info)).Nodup) :
    phi g (dijkstraInit o) ≤ g.dijkstraFuel := by
  have hfilter : g.vertices.filter (fun v => v.info ∉ ([] : List VId)) = g.vertices := by
    apply List.filter_eq_self.mpr
    intro v _
    simp
  have h1 : phi g (dijkstraInit o) = 1 + unvisitedWeight g [] := rfl
  have h2 : unvisitedWeight g [] =
      g.vertices.length + (g.vertices.map (fun v => (g.adj v.info).length)).sum := by
    unfold unvisitedWeight
    rw [hfilter, sum_map_one_add]
  have h3 : (g.vertices.map (fun v => (g.adj v.info).length)).sum ≤ g.edges.length :=
    sum_adj_le hnd g.edges
  have h4 : g.dijkstraFuel = g.vertices.length + g.edges.length + 2 := rfl
  omega

/-- The state after initialisation satisfies the loop invariant. -/
theorem init_DInv (g : Graph) (o : VId) (ho : (g.findVertex o).isSome) :
    DInv g o (dijkstraInit o) := by
  refine ⟨⟨?_, ?_, ?_, ?_, ?_, ?_, ?_, ?_, ?_, ?_⟩, ?_, ?_, ?_, ?_, ?_, ?_⟩
  · simp [dijkstraInit]
  · intro v
    by_cases hv : v = o <;> simp [dijkstraInit, hv, EDouble.Nonneg]
  · intro v hv
    by_cases hveq : v = o
    · subst hveq
      exact ⟨[], DrivePath.nil v, by simp [dijkstraInit]⟩
    · simp [dijkstraInit, hveq] at hv
  · intro v _
    by_cases hveq : v = o
    · exact Or.inl hveq
    · exact Or.inr (by simp [dijkstraInit, hveq])
  · intro v e hv
    simp [dijkstraInit] at hv
  · intro j v hv
    simp [dijkstraInit] at hv
  · intro v hv
    simp [dijkstraInit] at hv
  · simp [dijkstraInit]
  · intro v hv
    simp [dijkstraInit] at hv
  · intro v hv
    simp [dijkstraInit] at hv
  · intro v _ hfin
    by_cases hveq : v = o
    · simp [dijkstraInit, hveq]
    · simp [dijkstraInit, hveq] at hfin
  · intro a ha
    simp [dijkstraInit] at ha
  · intro a ha
    simp [dijkstraInit] at ha
  · exact Or.inr (by simp [dijkstraInit])
  · intro v hv
    simp [dijkstraInit] at hv
    simp [dijkstraInit, hv]
  · intro v hv
    simp [dijkstraInit] at hv
    subst hv
    exact ho

/-- Correctness of the backward predecessor walk: from any visited
vertex it rebuilds a valid path from the origin whose cost is exactly
the recorded distance, given enough fuel to cover the visited count. -/
theorem buildChain_correct (g : Graph) (o : VId) (st : DState) (hB : DBase g o st) :
    ∀ (n j : Nat) (v : VId), v ∈ st.visited.drop j →
      st.visited.length ≤ n + j →
      DrivePath g o v ((buildChain st.pred n v).reverse) ∧
      pathCost ((buildChain st.pred n v).reverse) = st.dist v := by
  intro n
  induction n with
  | zero =>
    intro j v hv hlen
    have : st.visited.drop j = [] := List.drop_eq_nil_of_le (by omega)
    rw [this] at hv
    simp at hv
  | succ n ih =>
    intro j v hv hlen
    have hvmem : v ∈ st.visited := List.mem_of_mem_drop hv
    have hfin : st.dist v ≠ EDouble.inf := hB.visited_dist v hvmem
    cases hp : st.pred v with
    | none =>
      have hvo : v = o := by
        rcases hB.pred_none v hp with h | h
        · exact h
        · exact absurd h hfin
      subst hvo
      refine ⟨by simpa [buildChain, hp] using DrivePath.nil v, ?_⟩
      simp [buildChain, hp, hB.dist_o]
    | some e =>
      obtain ⟨heE, hue, hdest, horigvis, hcost⟩ := hB.pred_some v e hp
      have horder : e.orig ∈ st.visited.drop (j + 1) := hB.pred_order j v hv e hp
      obtain ⟨ih1, ih2⟩ := ih (j + 1) e.orig horder (by omega)
      have hchain : buildChain st.pred (n + 1) v = e :: buildChain st.pred n e.orig := by
        simp [buildChain, hp]
      rw [hchain]
      constructor
      · rw [List.reverse_cons]
        have := ih1.snoc heE hue
        rwa [hdest] at this
      · rw [List.reverse_cons, pathCost_append, pathCost_single, ih2, hcost]

/-- The reported total of `dijkstraDriving`: the destination's `dist`
scratch value after the search, which the callers print as the route
cost. -/
def Graph.dijkstraDrivingDist (g : Graph) (origin destination : VId) : Option EDouble :=
  (g.dijkstraDrivingState origin destination).toOption.map (fun st => st.dist destination)

/-- C1: on every wellformed graph with nonnegative drive times and
origin/destination present, `dijkstraDriving` returns an edge sequence
`es` such that: if any valid driving path (available edges, finite
drive time, available destination vertex) exists from origin to
destination, `es` is such a path, the destination's reported distance
equals the sum of the drive times of `es`, and that sum is minimal
among all valid driving paths; and if no valid path exists, `es` is the
empty list.  (The empty sequence counts as the trivial path when
origin = destination.) -/
theorem dijkstraDriving_correct (g : Graph) (o d : VId)
    (hwf : g.WF) (hnn : NonnegDrive g)
    (ho : (g.findVertex o).isSome) (hd : (g.findVertex d).isSome) :
    ∃ es, g.dijkstraDriving o d = .ok es ∧
      ((∃ p, DrivePath g o d p) →
        DrivePath g o d es ∧
        (∀ p, DrivePath g o d p → pathCost es ≤ pathCost p) ∧
        g.dijkstraDrivingDist o d = some (pathCost es)) ∧
      ((¬ ∃ p, DrivePath g o d p) → es = []) := by
  obtain ⟨vo, hvo⟩ := Option.isSome_iff_exists.mp ho
  obtain ⟨vd, hvd⟩ := Option.isSome_iff_exists.mp hd
  have hwfd : ∀ e ∈ g.edges, (g.findVertex e.dest).isSome := fun e he => (hwf.2.2 e he).2
  have hstate : g.dijkstraDrivingState o d =
      .ok (dijkstraLoopDriving g d g.dijkstraFuel (dijkstraInit o)) := by
    simp [Graph.dijkstraDrivingState, hvo, hvd]
  set stF := dijkstraLoopDriving g d g.dijkstraFuel (dijkstraInit o) with hstF
  have hpost : LoopPost g o d stF :=
    loop_master g o d hnn hwfd g.dijkstraFuel (dijkstraInit o)
      (init_DInv g o ho) (phi_init_le g o hwf.1)
  obtain ⟨hB, hdisj⟩ := hpost
  have hres : g.dijkstraDriving o d = .ok (g.getPath stF d) := by
    simp [Graph.dijkstraDriving, hstate, Except.map]
  have hdist : g.dijkstraDrivingDist o d = some (stF.dist d) := by
    simp [Graph.dijkstraDrivingDist, hstate, Except.toOption]
  refine ⟨g.getPath stF d, hres, ?_, ?_⟩
  · intro hex
    obtain ⟨p, hpth⟩ := hex
    -- the destination was visited
    have hdvis : d ∈ stF.visited := by
      rcases hdisj with h | ⟨hpq, hI⟩
      · exact h
      · rcases frontier g o hnn stF hI d p hpth with ⟨h1, _⟩ | ⟨y, hy, _⟩
        · exact h1
        · rw [hpq] at hy
          simp at hy
    have hdfin : stF.dist d ≠ EDouble.inf := hB.visited_dist d hdvis
    have hlenb : stF.visited.length ≤ g.vertices.length := by
      have hsub : ∀ v ∈ stF.visited, v ∈ g.vertices.map (fun x => x.info) := by
        intro v hvv
        obtain ⟨w, hw, hwi⟩ := findVertex_isSome_iff.mp (hB.visited_mem v hvv)
        exact hwi ▸ List.mem_map_of_mem _ hw
      calc stF.visited.length
          = stF.visited.toFinset.card := (List.toFinset_card_of_nodup hB.visited_nodup).symm
        _ ≤ (g.vertices.map (fun x => x.info)).toFinset.card := by
            apply Finset.card_le_card
            intro x hx
            rw [List.mem_toFinset] at hx ⊢
            exact hsub x hx
        _ ≤ (g.vertices.map (fun x => x.info)).length := List.toFinset_card_le _
        _ = g.vertices.length := List.length_map _ _
    cases hpred : stF.pred d with
    | none =>
      have hdo : d = o := by
        rcases hB.pred_none d hpred with h | h
        · exact h
        · exact absurd h hdfin
      have hpath0 : g.getPath stF d = [] := by
        simp [Graph.getPath, hpred]
      rw [hpath0]
      subst hdo
      refine ⟨DrivePath.nil d, ?_, ?_⟩
      · intro p' hp'
        have := hB.m1 d hdvis p' hp'
        rw [hB.dist_o] at this
        simpa using this
      · rw [hdist, hB.dist_o]
        simp
    | some e =>
      have hpath : g.getPath stF d =
          (buildChain stF.pred (g.vertices.length + 1) d).reverse := by
        simp [Graph.getPath, hpred]
      obtain ⟨hc1, hc2⟩ := buildChain_correct g o stF hB (g.vertices.length + 1) 0 d
        (by simpa using hdvis) (by omega)
      rw [hpath]
      refine ⟨hc1, ?_, ?_⟩
      · intro p' hp'
        rw [hc2]
        exact hB.m1 d hdvis p' hp'
      · rw [hdist, hc2]
  · intro hnex
    have hdnvis : d ∉ stF.visited := by
      intro hdvis
      obtain ⟨es, hp, _⟩ := hB.dist_sound d (hB.visited_dist d hdvis)
      exact hnex ⟨es, hp⟩
    rcases hdisj with h | ⟨hpq, hI⟩
    · exact absurd h hdnvis
    · have hdinf : stF.dist d = EDouble.inf := by
        by_contra hfin
        have := hI.q1 d hdnvis hfin
        rw [hpq] at this
        simp at this
      have hpred : stF.pred d = none := by
        cases hpred : stF.pred d with
        | none => rfl
        | some e =>
          obtain ⟨heE, hue, _, horigvis, hcost⟩ := hB.pred_some d e hpred
          have h1 : stF.dist e.orig ≠ EDouble.inf := hB.visited_dist e.orig horigvis
          have : stF.dist d ≠ EDouble.inf := by
            rw [hcost]
            exact EDouble.add_ne_inf_of h1 hue.1
          exact absurd hdinf this
      simp [Graph.getPath, hpred]

/-- Witness for C1: the scenario graph query 1 → 3 (both ids present,
wellformed, nonnegative drive times). -/
theorem dijkstraDriving_correct_witness :
    ∃ es, gABC.dijkstraDriving 1 3 = .ok es ∧
      ((∃ p, DrivePath gABC 1 3 p) →
        DrivePath gABC 1 3 es ∧
        (∀ p, DrivePath gABC 1 3 p → pathCost es ≤ pathCost p) ∧
        gABC.dijkstraDrivingDist 1 3 = some (pathCost es)) ∧
      ((¬ ∃ p, DrivePath gABC 1 3 p) → es = []) :=
  dijkstraDriving_correct gABC 1 3 (by decide) (by decide) (by decide) (by decide)

/-! ## Effect of marking edges unavailable (alternate route) -/

theorem setEdges_findVertex (g : Graph) (eids : List Nat) (b : Bool) (v : VId) :
    (g.setEdgesAvailable eids b).findVertex v = g.findVertex v := rfl

theorem setEdges_edge_fields (eids : List Nat) (b : Bool) (e : Edge) :
    (if e.eid ∈ eids then { e with available := b } else e).eid = e.eid ∧
    (if e.eid ∈ eids then { e with available := b } else e).orig = e.orig ∧
    (if e.eid ∈ eids then { e with available := b } else e).dest = e.dest ∧
    (if e.eid ∈ eids then { e with available := b } else e).driveTime = e.driveTime ∧
    (if e.eid ∈ eids then { e with available := b } else e).walkTime = e.walkTime := by
  by_cases h : e.eid ∈ eids <;> simp [h]

theorem setEdges_WF {g : Graph} (hwf : g.WF) (eids : List Nat) (b : Bool) :
    (g.setEdgesAvailable eids b).WF := by
  obtain ⟨h1, h2, h3⟩ := hwf
  refine ⟨h1, ?_, ?_⟩
  · have : (g.setEdgesAvailable eids b).edges.map (fun e => e.eid) =
        g.edges.map (fun e => e.eid) := by
      simp only [Graph.setEdgesAvailable, List.map_map]
      apply List.map_congr_left
      intro e _
      exact (setEdges_edge_fields eids b e).1
    rw [this]
    exact h2
  · intro e' he'
    obtain ⟨e, he, rfl⟩ := List.mem_map.mp he'
    obtain ⟨ho, hd⟩ := h3 e he
    obtain ⟨-, horig, hdest, -, -⟩ := setEdges_edge_fields eids b e
    rw [setEdges_findVertex, setEdges_findVertex, horig, hdest]
    exact ⟨ho, hd⟩

theorem setEdges_NonnegDrive {g : Graph} (hnn : NonnegDrive g)
    (eids : List Nat) (b : Bool) : NonnegDrive (g.setEdgesAvailable eids b) := by
  intro e' he'
  obtain ⟨e, he, rfl⟩ := List.mem_map.mp he'
  obtain ⟨-, -, -, hdt, -⟩ := setEdges_edge_fields eids b e
  rw [hdt]
  exact hnn e he

/-- After marking, every edge record carrying a marked identity is
unavailable. -/
theorem setEdges_marked_unavailable (g : Graph) (eids : List Nat) :
    ∀ e' ∈ (g.setEdgesAvailable eids false).edges, e'.eid ∈ eids →
      e'.available = false := by
  intro e' he' hin
  obtain ⟨e, he, rfl⟩ := List.mem_map.mp he'
  by_cases h : e.eid ∈ eids
  · simp [h]
  · simp only [if_neg h] at hin ⊢
    exact absurd hin h

/-- If the drive-time search succeeds with a nonempty result, that
result is a valid driving path (in particular all its edges are
available in the graph the search ran on). -/
theorem dijkstraDriving_path_of_ne_nil {g : Graph} {o d : VId} {es : List Edge}
    (hwf : g.WF) (hnn : NonnegDrive g)
    (hrun : g.dijkstraDriving o d = .ok es) (hne : es ≠ []) :
    DrivePath g o d es := by
  have ho : (g.findVertex o).isSome := by
    by_contra h
    rw [Option.not_isSome_iff_eq_none] at h
    simp [Graph.dijkstraDriving, Graph.dijkstraDrivingState, h, Except.map] at hrun
  have hd : (g.findVertex d).isSome := by
    obtain ⟨vo, hvo⟩ := Option.isSome_iff_exists.mp ho
    by_contra h
    rw [Option.not_isSome_iff_eq_none] at h
    simp [Graph.dijkstraDriving, Graph.dijkstraDrivingState, hvo, h, Except.map] at hrun
  obtain ⟨es', hrun', hyes, hno⟩ := dijkstraDriving_correct g o d hwf hnn ho hd
  rw [hrun] at hrun'
  cases hrun'
  by_cases hex : ∃ p, DrivePath g o d p
  · exact (hyes hex).1
  · exact absurd (hno hex) hne

/-- C4: whenever the primary drive-time search of
`fastestDrivingPathWithAlt` finds a nonempty path, the alternate search
(running with the primary path's edges marked unavailable) never
reports exactly the primary edge sequence: it reports a different
sequence or none at all. -/
theorem alt_route_differs (g : Graph) (o d : VId) (hwf : g.WF) (hnn : NonnegDrive g)
    {out : AltOutput} {g' : Graph} {es : List Edge}
    (hrun : g.fastestDrivingPathWithAlt o d = (.ok out, g'))
    (hbest : out.best = some es) (hne : es ≠ []) :
    out.alt ≠ some es := by
  rcases hstate : g.dijkstraDrivingState o d with msg | st1
  · simp [Graph.fastestDrivingPathWithAlt, hstate] at hrun
  · by_cases hempty : g.getPath st1 d = []
    · have hout : out = ⟨o, d, none, none⟩ := by
        have h1 := (Prod.ext_iff.mp hrun).1
        simp only [Graph.fastestDrivingPathWithAlt, hstate, if_pos hempty] at h1
        injection h1 with h1
        exact h1.symm
      rw [hout] at hbest
      simp at hbest
    · set eids := (g.getPath st1 d).map (fun e => e.eid) with heids
      set g2 := g.setEdgesAvailable eids false with hg2
      rcases hstate2 : g2.dijkstraDrivingState o d with msg2 | st2
      · have h1 := (Prod.ext_iff.mp hrun).1
        simp only [Graph.fastestDrivingPathWithAlt, hstate, if_neg hempty,
          ← heids, ← hg2, hstate2] at h1
        exact Except.noConfusion h1
      · have halt : g2.dijkstraDriving o d = .ok (g2.getPath st2 d) := by
          simp [Graph.dijkstraDriving, hstate2, Except.map]
        have h1 := (Prod.ext_iff.mp hrun).1
        simp only [Graph.fastestDrivingPathWithAlt, hstate, if_neg hempty,
          ← heids, ← hg2, hstate2] at h1
        injection h1 with h1
        have hout : out = ⟨o, d, some (g.getPath st1 d),
            if g2.getPath st2 d = [] then none else some (g2.getPath st2 d)⟩ := h1.symm
        subst hout
        simp only at hbest
        cases hbest
        intro haltEq
        simp only at haltEq
        by_cases haltempty : g2.getPath st2 d = []
        · simp [haltempty] at haltEq
        · rw [if_neg haltempty] at haltEq
          injection haltEq with haltEq
          have hpath2 : DrivePath g2 o d (g2.getPath st2 d) :=
            dijkstraDriving_path_of_ne_nil (setEdges_WF hwf eids false)
              (setEdges_NonnegDrive hnn eids false) halt haltempty
          obtain ⟨e0, rest0, hcons⟩ := List.exists_cons_of_ne_nil haltempty
          have he0mem : e0 ∈ g2.getPath st2 d := by rw [hcons]; simp
          have he0g2 : e0 ∈ g2.edges := hpath2.edges_mem e0 he0mem
          have he0avail : e0.available = true := (hpath2.edges_usable e0 he0mem).2.1
          have he0eid : e0.eid ∈ eids := by
            rw [heids]
            refine List.mem_map_of_mem _ ?_
            rw [← haltEq]
            exact he0mem
          have hfalse := setEdges_marked_unavailable g eids e0 he0g2 he0eid
          rw [he0avail] at hfalse
          exact absurd hfalse (by simp)

def altEsABC : List Edge :=
  [⟨0, 1, 2, .val 10, .val 5, true, some 1⟩,
   ⟨2, 2, 3, .val 2, .val 3, true, some 3⟩]

def altOutABC : AltOutput := ⟨1, 3, some altEsABC, none⟩

theorem alt_route_differs_witness :
    gABC.WF ∧ NonnegDrive gABC ∧
    gABC.fastestDrivingPathWithAlt 1 3 = (.ok altOutABC, gABC) ∧
    altOutABC.best = some altEsABC ∧ altEsABC ≠ [] ∧
    altOutABC.alt ≠ some altEsABC :=
  have hrun : gABC.fastestDrivingPathWithAlt 1 3 = (.ok altOutABC, gABC) := by decide
  ⟨by decide, by decide, hrun, by decide, by decide,
   alt_route_differs gABC 1 3 (by decide) (by decide)
     hrun (by decide) (by decide)⟩

/-! ## C7: the walking search never consults availability flags

`dijkstraWalking` is invariant under arbitrary reassignment of every
vertex and edge availability flag: the same edges (up to the flag
itself) are returned.  In particular a walking path may traverse edges
or vertices currently marked unavailable. -/

/-- Reassign one edge's availability flag (everything else kept). -/
def Edge.reavail (fe : Nat → Bool) (e : Edge) : Edge :=
  { e with available := fe e.eid }

/-- Reassign every availability flag in the graph: vertex `v` receives
`fv v.info`, edge `e` receives `fe e.eid`; nothing else changes. -/
def Graph.reavail (g : Graph) (fv : VId → Bool) (fe : Nat → Bool) : Graph :=
  { g with
    vertices := g.vertices.map (fun v => { v with available := fv v.info })
    edges := g.edges.map (Edge.reavail fe) }

theorem adj_reavail (g : Graph) (fv : VId → Bool) (fe : Nat → Bool) (u : VId) :
    (g.reavail fv fe).adj u = (g.adj u).map (Edge.reavail fe) := by
  show (g.edges.map (Edge.reavail fe)).filter (fun e => e.orig = u)
      = (g.edges.filter (fun e => e.orig = u)).map (Edge.reavail fe)
  induction g.edges with
  | nil => rfl
  | cons e es ih =>
    by_cases h : e.orig = u <;>
      simp [List.filter_cons, Edge.reavail, h, ih]

theorem findVertex_reavail (g : Graph) (fv : VId → Bool) (fe : Nat → Bool) (i : VId) :
    (g.reavail fv fe).findVertex i =
      (g.findVertex i).map (fun v => { v with available := fv v.info }) := by
  show (g.vertices.map _).find? _ = (g.vertices.find? _).map _
  induction g.vertices with
  | nil => rfl
  | cons v vs ih =>
    by_cases h : v.info = i <;> simp [List.find?, h, ih]

theorem dijkstraFuel_reavail (g : Graph) (fv : VId → Bool) (fe : Nat → Bool) :
    (g.reavail fv fe).dijkstraFuel = g.dijkstraFuel := by
  simp [Graph.dijkstraFuel, Graph.reavail]

/-- The simulation relation between a walking-search state over `g` and
the corresponding state over the reflagged graph: identical distances,
visited list and queue, and predecessor edges equal up to the flag. -/
def ReavailRel (fe : Nat → Bool) (st st' : DState) : Prop :=
  st'.dist = st.dist ∧ st'.visited = st.visited ∧ st'.pq = st.pq ∧
  ∀ v, st'.pred v = (st.pred v).map (Edge.reavail fe)

theorem relaxWalking_reavail (g g' : Graph) (fe : Nat → Bool) (u : VId) :
    ∀ (es : List Edge) (st st' : DState), ReavailRel fe st st' →
      ReavailRel fe (relaxWalking g u es st)
        (relaxWalking g' u (es.map (Edge.reavail fe)) st')
  | [], _, _, h => h
  | e :: es, st, st', h => by
    obtain ⟨hd, hv, hq, hp⟩ := h
    rw [List.map_cons, relaxWalking, relaxWalking]
    by_cases hinf : e.walkTime = EDouble.inf
    · rw [if_pos hinf, if_pos (show (Edge.reavail fe e).walkTime = EDouble.inf from hinf)]
      exact relaxWalking_reavail g g' fe u es st st' ⟨hd, hv, hq, hp⟩
    · rw [if_neg hinf, if_neg (show ¬ (Edge.reavail fe e).walkTime = EDouble.inf from hinf)]
      show ReavailRel fe
        (if ((st.dist u).add e.walkTime).blt (st.dist e.dest) = true then
          relaxWalking g u es
            ⟨fun v => if v = e.dest then (st.dist u).add e.walkTime else st.dist v,
             fun v => if v = e.dest then some e else st.pred v,
             st.visited, st.pq ++ [e.dest]⟩
         else relaxWalking g u es st)
        (if ((st'.dist u).add e.walkTime).blt (st'.dist e.dest) = true then
          relaxWalking g' u (es.map (Edge.reavail fe))
            ⟨fun v => if v = e.dest then (st'.dist u).add e.walkTime else st'.dist v,
             fun v => if v = e.dest then some (Edge.reavail fe e) else st'.pred v,
             st'.visited, st'.pq ++ [e.dest]⟩
         else relaxWalking g' u (es.map (Edge.reavail fe)) st')
      rw [hd, hq, hv]
      by_cases himp : ((st.dist u).add e.walkTime).blt (st.dist e.dest) = true
      · rw [if_pos himp, if_pos himp]
        refine relaxWalking_reavail g g' fe u es _ _ ⟨rfl, rfl, rfl, fun v => ?_⟩
        by_cases hvd : v = e.dest
        · simp [hvd]
        · simp [hvd, hp v]
      · rw [if_neg himp, if_neg himp]
        exact relaxWalking_reavail g g' fe u es st st' ⟨hd, hv, hq, hp⟩

theorem dijkstraLoopWalking_reavail (g : Graph) (fv : VId → Bool) (fe : Nat → Bool) (d : VId) :
    ∀ (fuel : Nat) (st st' : DState), ReavailRel fe st st' →
      ReavailRel fe (dijkstraLoopWalking g d fuel st)
        (dijkstraLoopWalking (g.reavail fv fe) d fuel st')
  | 0, _, _, h => h
  | fuel + 1, st, st', h => by
    obtain ⟨hd, hv, hq, hp⟩ := h
    rw [dijkstraLoopWalking, dijkstraLoopWalking, hd, hq, hv]
    cases hpop : popMin st.dist st.pq with
    | none => exact ⟨hd, hv, hq, hp⟩
    | some p =>
      obtain ⟨u, rest⟩ := p
      dsimp only
      by_cases hu : u ∈ st.visited
      · rw [if_pos hu, if_pos hu]
        exact dijkstraLoopWalking_reavail g fv fe d fuel _ _ ⟨rfl, rfl, rfl, hp⟩
      · rw [if_neg hu, if_neg hu]
        by_cases hdst : u = d
        · rw [if_pos hdst, if_pos hdst]
          exact ⟨rfl, rfl, rfl, hp⟩
        · rw [if_neg hdst, if_neg hdst]
          refine dijkstraLoopWalking_reavail g fv fe d fuel _ _ ?_
          rw [adj_reavail]
          exact relaxWalking_reavail g (g.reavail fv fe) fe u (g.adj u) _ _
            ⟨rfl, rfl, rfl, hp⟩

theorem buildChain_reavail (fe : Nat → Bool) {p p' : VId → Option Edge}
    (hp : ∀ v, p' v = (p v).map (Edge.reavail fe)) :
    ∀ (fuel : Nat) (v : VId),
      buildChain p' fuel v = (buildChain p fuel v).map (Edge.reavail fe)
  | 0, _ => rfl
  | fuel + 1, v => by
    rw [buildChain, buildChain, hp v]
    cases p v with
    | none => rfl
    | some e =>
      show Edge.reavail fe e :: buildChain p' fuel e.orig
          = (e :: buildChain p fuel e.orig).map (Edge.reavail fe)
      rw [List.map_cons, buildChain_reavail fe hp fuel e.orig]

theorem getPath_reavail (g : Graph) (fv : VId → Bool) (fe : Nat → Bool)
    {st st' : DState} (h : ReavailRel fe st st') (d : VId) :
    (g.reavail fv fe).getPath st' d = (g.getPath st d).map (Edge.reavail fe) := by
  obtain ⟨-, -, -, hp⟩ := h
  rw [Graph.getPath, Graph.getPath, hp d]
  cases st.pred d with
  | none => rfl
  | some e =>
    show (buildChain st'.pred ((g.reavail fv fe).vertices.length + 1) d).reverse
        = ((buildChain st.pred (g.vertices.length + 1) d).reverse).map (Edge.reavail fe)
    have hlen : (g.reavail fv fe).vertices.length = g.vertices.length := by
      simp [Graph.reavail]
    rw [hlen, buildChain_reavail fe hp, List.map_reverse]

/-- C7: `dijkstraWalking` never consults any `isAvailable` flag: its
result is invariant (up to the flags carried inside the returned edge
records) under an arbitrary reassignment of every vertex's and every
edge's availability flag — in particular the returned edge-id sequence
is identical, so a walking path may traverse edges or vertices
currently marked unavailable. -/
theorem dijkstraWalking_ignores_availability (g : Graph) (o d : VId)
    (fv : VId → Bool) (fe : Nat → Bool) :
    (g.reavail fv fe).dijkstraWalking o d =
      (g.dijkstraWalking o d).map (Edge.reavail fe) ∧
    ((g.reavail fv fe).dijkstraWalking o d).map (fun e => e.eid) =
      (g.dijkstraWalking o d).map (fun e => e.eid) := by
  have hmain : (g.reavail fv fe).dijkstraWalking o d =
      (g.dijkstraWalking o d).map (Edge.reavail fe) := by
    rw [Graph.dijkstraWalking, Graph.dijkstraWalking,
      Graph.dijkstraWalkingState, Graph.dijkstraWalkingState,
      findVertex_reavail, findVertex_reavail]
    cases g.findVertex o with
    | none => rfl
    | some vo =>
      cases g.findVertex d with
      | none => rfl
      | some vd =>
        show (g.reavail fv fe).getPath
            (dijkstraLoopWalking (g.reavail fv fe) d (g.reavail fv fe).dijkstraFuel
              (dijkstraInit o)) d
          = (g.getPath (dijkstraLoopWalking g d g.dijkstraFuel (dijkstraInit o)) d).map
              (Edge.reavail fe)
        rw [dijkstraFuel_reavail]
        exact getPath_reavail g fv fe
          (dijkstraLoopWalking_reavail g fv fe d g.dijkstraFuel _ _
            ⟨rfl, rfl, rfl, fun v => rfl⟩) d
  refine ⟨hmain, ?_⟩
  rw [hmain, List.map_map]
  exact List.map_congr_left fun a _ => rfl

/-! ## C10: the origin's own availability flag cannot affect the driving search

Availability is consulted only on each relaxed edge and on that edge's
destination vertex; an edge back into the origin can never improve the
origin's distance 0 when drive times are nonnegative, so flipping the
origin's flag changes nothing. -/

theorem findVertex_setVertexAvailable (g : Graph) (o : VId) (b : Bool) (i : VId) :
    (g.setVertexAvailable o b).findVertex i =
      (g.findVertex i).map (fun v => if v.info = o then { v with available := b } else v) := by
  show (g.vertices.map _).find? _ = (g.vertices.find? _).map _
  induction g.vertices with
  | nil => rfl
  | cons v vs ih =>
    by_cases hvo : v.info = o
    · by_cases hvi : v.info = i
      · have hoi : o = i := hvo.symm.trans hvi
        simp [List.find?, hvo, hvi, hoi, ih]
      · have hoi : ¬ o = i := fun h => hvi (hvo.trans h)
        simp [List.find?, hvo, hvi, hoi, ih]
    · by_cases hvi : v.info = i
      · have hio : ¬ i = o := fun h => hvo (hvi.trans h)
        simp [List.find?, hvo, hvi, hio, ih]
      · simp [List.find?, hvo, hvi, ih]

theorem find_info {vs : List Vertex} {i : VId} {v : Vertex}
    (h : vs.find? (fun v => v.info = i) = some v) : v.info = i := by
  have := List.find?_some h
  simpa using this

theorem destAvailable_setVertexAvailable (g : Graph) (o : VId) (b : Bool) {e : Edge}
    (h : ¬ e.dest = o) :
    (g.setVertexAvailable o b).destAvailable e = g.destAvailable e := by
  unfold Graph.destAvailable
  rw [findVertex_setVertexAvailable]
  cases hf : g.findVertex e.dest with
  | none => rfl
  | some v =>
    have hvi : ¬ v.info = o := by rw [find_info hf]; exact h
    simp [hvi]

theorem relaxDriving_cons_guard (G : Graph) (u : VId) (e : Edge) (es : List Edge)
    (st : DState)
    (hg : e.driveTime = EDouble.inf ∨ e.available = false ∨ G.destAvailable e = false) :
    relaxDriving G u (e :: es) st = relaxDriving G u es st := by
  rw [relaxDriving, if_pos hg]

theorem relaxDriving_cons_relax (G : Graph) (u : VId) (e : Edge) (es : List Edge)
    (st : DState)
    (hg : ¬ (e.driveTime = EDouble.inf ∨ e.available = false ∨ G.destAvailable e = false))
    (hblt : ((st.dist u).add e.driveTime).blt (st.dist e.dest) = true) :
    relaxDriving G u (e :: es) st = relaxDriving G u es
      ⟨fun v => if v = e.dest then (st.dist u).add e.driveTime else st.dist v,
       fun v => if v = e.dest then some e else st.pred v,
       st.visited, st.pq ++ [e.dest]⟩ := by
  rw [relaxDriving, if_neg hg]
  show (if ((st.dist u).add e.driveTime).blt (st.dist e.dest) = true then
      relaxDriving G u es
        ⟨fun v => if v = e.dest then (st.dist u).add e.driveTime else st.dist v,
         fun v => if v = e.dest then some e else st.pred v,
         st.visited, st.pq ++ [e.dest]⟩
    else relaxDriving G u es st) = _
  rw [if_pos hblt]

theorem relaxDriving_cons_noblt (G : Graph) (u : VId) (e : Edge) (es : List Edge)
    (st : DState)
    (hg : ¬ (e.driveTime = EDouble.inf ∨ e.available = false ∨ G.destAvailable e = false))
    (hblt : ((st.dist u).add e.driveTime).blt (st.dist e.dest) = false) :
    relaxDriving G u (e :: es) st = relaxDriving G u es st := by
  rw [relaxDriving, if_neg hg]
  show (if ((st.dist u).add e.driveTime).blt (st.dist e.dest) = true then
      relaxDriving G u es
        ⟨fun v => if v = e.dest then (st.dist u).add e.driveTime else st.dist v,
         fun v => if v = e.dest then some e else st.pred v,
         st.visited, st.pq ++ [e.dest]⟩
    else relaxDriving G u es st) = _
  rw [hblt, if_neg (by simp)]

theorem relaxDriving_setVertexAvailable (g : Graph) (o : VId) (b : Bool) (u : VId)
    (hnn : NonnegDrive g) :
    ∀ (es : List Edge), (∀ e ∈ es, e ∈ g.edges) → ∀ (st : DState),
      st.dist o = EDouble.val 0 → (∀ v, (st.dist v).Nonneg) →
      relaxDriving (g.setVertexAvailable o b) u es st = relaxDriving g u es st ∧
      (relaxDriving g u es st).dist o = EDouble.val 0 ∧
      (∀ v, ((relaxDriving g u es st).dist v).Nonneg)
  | [], _, st, h0, hpos => ⟨rfl, h0, hpos⟩
  | e :: es, hmem, st, h0, hpos => by
    have hemem : e ∈ g.edges := hmem e (List.mem_cons_self e es)
    have hes : ∀ e' ∈ es, e' ∈ g.edges := fun e' h => hmem e' (List.mem_cons_of_mem e h)
    by_cases hdo : e.dest = o
    · have hblt : ((st.dist u).add e.driveTime).blt (st.dist e.dest) = false := by
        rw [hdo, h0]
        exact EDouble.blt_zero_of_nonneg (EDouble.add_nonneg (hpos u) (hnn e hemem))
      have lhs : relaxDriving (g.setVertexAvailable o b) u (e :: es) st =
          relaxDriving (g.setVertexAvailable o b) u es st := by
        by_cases hg : e.driveTime = EDouble.inf ∨ e.available = false ∨
            (g.setVertexAvailable o b).destAvailable e = false
        · exact relaxDriving_cons_guard _ u e es st hg
        · exact relaxDriving_cons_noblt _ u e es st hg hblt
      have rhs : relaxDriving g u (e :: es) st = relaxDriving g u es st := by
        by_cases hg : e.driveTime = EDouble.inf ∨ e.available = false ∨
            g.destAvailable e = false
        · exact relaxDriving_cons_guard _ u e es st hg
        · exact relaxDriving_cons_noblt _ u e es st hg hblt
      rw [lhs, rhs]
      exact relaxDriving_setVertexAvailable g o b u hnn es hes st h0 hpos
    · by_cases hg : e.driveTime = EDouble.inf ∨ e.available = false ∨
          g.destAvailable e = false
      · have hg' : e.driveTime = EDouble.inf ∨ e.available = false ∨
            (g.setVertexAvailable o b).destAvailable e = false := by
          rw [destAvailable_setVertexAvailable g o b hdo]; exact hg
        rw [relaxDriving_cons_guard _ u e es st hg', relaxDriving_cons_guard _ u e es st hg]
        exact relaxDriving_setVertexAvailable g o b u hnn es hes st h0 hpos
      · have hg' : ¬ (e.driveTime = EDouble.inf ∨ e.available = false ∨
            (g.setVertexAvailable o b).destAvailable e = false) := by
          rw [destAvailable_setVertexAvailable g o b hdo]; exact hg
        by_cases hblt : ((st.dist u).add e.driveTime).blt (st.dist e.dest) = true
        · rw [relaxDriving_cons_relax _ u e es st hg' hblt,
            relaxDriving_cons_relax _ u e es st hg hblt]
          refine relaxDriving_setVertexAvailable g o b u hnn es hes _ ?_ ?_
          · show (if o = e.dest then _ else st.dist o) = EDouble.val 0
            rw [if_neg (fun hh => hdo hh.symm)]
            exact h0
          · intro v
            show (if v = e.dest then ((st.dist u).add e.driveTime) else st.dist v).Nonneg
            by_cases hv : v = e.dest
            · rw [if_pos hv]
              exact EDouble.add_nonneg (hpos u) (hnn e hemem)
            · rw [if_neg hv]
              exact hpos v
        · have hblt' : ((st.dist u).add e.driveTime).blt (st.dist e.dest) = false :=
            Bool.eq_false_iff.mpr hblt
          rw [relaxDriving_cons_noblt _ u e es st hg' hblt',
            relaxDriving_cons_noblt _ u e es st hg hblt']
          exact relaxDriving_setVertexAvailable g o b u hnn es hes st h0 hpos

theorem dijkstraLoopDriving_setVertexAvailable (g : Graph) (o : VId) (b : Bool) (d : VId)
    (hnn : NonnegDrive g) :
    ∀ (fuel : Nat) (st : DState),
      st.dist o = EDouble.val 0 → (∀ v, (st.dist v).Nonneg) →
      dijkstraLoopDriving (g.setVertexAvailable o b) d fuel st =
        dijkstraLoopDriving g d fuel st
  | 0, _, _, _ => rfl
  | fuel + 1, st, h0, hpos => by
    rw [dijkstraLoopDriving, dijkstraLoopDriving]
    cases hpop : popMin st.dist st.pq with
    | none => rfl
    | some p =>
      obtain ⟨u, rest⟩ := p
      dsimp only
      by_cases hu : u ∈ st.visited
      · rw [if_pos hu, if_pos hu]
        exact dijkstraLoopDriving_setVertexAvailable g o b d hnn fuel _ h0 hpos
      · rw [if_neg hu, if_neg hu]
        by_cases hdst : u = d
        · rw [if_pos hdst, if_pos hdst]
        · rw [if_neg hdst, if_neg hdst]
          have hadj : (g.setVertexAvailable o b).adj u = g.adj u := rfl
          rw [hadj]
          obtain ⟨heq, h0', hpos'⟩ := relaxDriving_setVertexAvailable g o b u hnn (g.adj u)
            (fun e he => List.mem_of_mem_filter he)
            ⟨st.dist, st.pred, u :: st.visited, rest⟩ h0 hpos
          rw [heq]
          exact dijkstraLoopDriving_setVertexAvailable g o b d hnn fuel _ h0' hpos'

theorem getPath_setVertexAvailable (g : Graph) (o : VId) (b : Bool) (st : DState) (d : VId) :
    (g.setVertexAvailable o b).getPath st d = g.getPath st d := by
  unfold Graph.getPath
  have hl : (g.setVertexAvailable o b).vertices.length = g.vertices.length := by
    simp [Graph.setVertexAvailable]
  rw [hl]

/-- C10: for a graph with nonnegative drive times, the result of
`dijkstraDriving` is identical in two runs that differ only in the
origin vertex's availability flag: availability is checked only on
relaxed edges and their destination vertices, and an edge back into the
origin can never beat the origin's distance 0, so marking the origin
unavailable (as `avoidNodes` of the restricted route does) excludes no
route departing from it. -/
theorem dijkstraDriving_origin_avail (g : Graph) (o d : VId) (b : Bool)
    (hnn : NonnegDrive g) :
    (g.setVertexAvailable o b).dijkstraDriving o d = g.dijkstraDriving o d := by
  rw [Graph.dijkstraDriving, Graph.dijkstraDriving,
    Graph.dijkstraDrivingState, Graph.dijkstraDrivingState,
    findVertex_setVertexAvailable, findVertex_setVertexAvailable]
  cases g.findVertex o with
  | none => rfl
  | some vo =>
    cases g.findVertex d with
    | none => rfl
    | some vd =>
      dsimp only [Option.map, Except.map]
      have hfuel : (g.setVertexAvailable o b).dijkstraFuel = g.dijkstraFuel := by
        simp [Graph.dijkstraFuel, Graph.setVertexAvailable]
      have h0 : (dijkstraInit o).dist o = EDouble.val 0 := by simp [dijkstraInit]
      have hpos : ∀ v, ((dijkstraInit o).dist v).Nonneg := by
        intro v
        by_cases hv : v = o <;> simp [dijkstraInit, hv, EDouble.Nonneg]
      rw [hfuel, dijkstraLoopDriving_setVertexAvailable g o b d hnn g.dijkstraFuel _ h0 hpos,
        getPath_setVertexAvailable]

theorem dijkstraDriving_origin_avail_witness :
    NonnegDrive gABC ∧
    (gABC.setVertexAvailable 1 false).dijkstraDriving 1 3 = gABC.dijkstraDriving 1 3 :=
  ⟨by decide, dijkstraDriving_origin_avail gABC 1 3 false (by decide)⟩

/-! ## C2 and C3: restoration of the availability flags -/

/-- Every availability flag in the graph is set (the normal state
between operations). -/
def AllAvail (g : Graph) : Prop :=
  (∀ v ∈ g.vertices, v.available = true) ∧ (∀ e ∈ g.edges, e.available = true)

instance : DecidablePred AllAvail := fun g =>
  inferInstanceAs (Decidable (_ ∧ _))

theorem Graph.eq_of_fields {a b : Graph}
    (h1 : a.vertices = b.vertices) (h2 : a.codeIndex = b.codeIndex)
    (h3 : a.edges = b.edges) (h4 : a.nextEid = b.nextEid) : a = b := by
  cases a; cases b; simp_all

theorem markAvoidNodes_cons (g : Graph) (n : VId) (ns : List VId) (b : Bool) :
    markAvoidNodes g (n :: ns) b =
      markAvoidNodes (if (g.findVertex n).isSome then g.setVertexAvailable n b else g)
        ns b := rfl

theorem markAvoidNodes_frame (ns : List VId) (b : Bool) :
    ∀ g : Graph, (markAvoidNodes g ns b).edges = g.edges ∧
      (markAvoidNodes g ns b).codeIndex = g.codeIndex ∧
      (markAvoidNodes g ns b).nextEid = g.nextEid := by
  induction ns with
  | nil => exact fun g => ⟨rfl, rfl, rfl⟩
  | cons n ns ih =>
    intro g
    rw [markAvoidNodes_cons]
    obtain ⟨h1, h2, h3⟩ := ih (if (g.findVertex n).isSome then g.setVertexAvailable n b else g)
    refine ⟨h1.trans ?_, h2.trans ?_, h3.trans ?_⟩ <;>
      by_cases h : (g.findVertex n).isSome <;> simp [h, Graph.setVertexAvailable]

theorem markAvoidNodes_vertices (ns : List VId) (b : Bool) :
    ∀ g : Graph, (markAvoidNodes g ns b).vertices =
      g.vertices.map (fun v => if v.info ∈ ns then { v with available := b } else v) := by
  induction ns with
  | nil =>
    intro g
    simp [markAvoidNodes]
  | cons n ns ih =>
    intro g
    rw [markAvoidNodes_cons, ih]
    by_cases h : (g.findVertex n).isSome
    · rw [if_pos h]
      show ((g.vertices.map _).map _) = _
      rw [List.map_map]
      apply List.map_congr_left
      intro v _
      by_cases hvn : v.info = n
      · by_cases hns : v.info ∈ ns <;>
          simp [Function.comp, hvn, hns, List.mem_cons]
      · simp [Function.comp, hvn, List.mem_cons]
    · rw [if_neg h]
      apply List.map_congr_left
      intro v hv
      have hvn : ¬ v.info = n := fun hh => h (findVertex_isSome_iff.mpr ⟨v, hv, hh⟩)
      simp [hvn, List.mem_cons]

theorem map_eq_self {α : Type} {f : α → α} {l : List α} (h : ∀ x ∈ l, f x = x) :
    l.map f = l := by
  induction l with
  | nil => rfl
  | cons x xs ih =>
    rw [List.map_cons, h x (List.mem_cons_self x xs),
      ih (fun y hy => h y (List.mem_cons_of_mem x hy))]

/-- Marking the avoid-nodes and switched edges unavailable and then
setting both groups available restores a graph whose flags were all set
to begin with. -/
theorem mark_unmark_restore (g : Graph) (ns : List VId) (eids : List Nat)
    (hav : AllAvail g) :
    (markAvoidNodes ((markAvoidNodes g ns false).setEdgesAvailable eids false) ns
      true).setEdgesAvailable eids true = g := by
  obtain ⟨hv, he⟩ := hav
  apply Graph.eq_of_fields
  · show (markAvoidNodes ((markAvoidNodes g ns false).setEdgesAvailable eids false) ns
        true).vertices = g.vertices
    rw [markAvoidNodes_vertices]
    show ((markAvoidNodes g ns false).vertices.map _) = g.vertices
    rw [markAvoidNodes_vertices, List.map_map]
    apply map_eq_self
    intro v hvm
    obtain ⟨vi, vc, vp, va⟩ := v
    have : va = true := hv _ hvm
    subst this
    by_cases hns : vi ∈ ns <;> simp [Function.comp, hns]
  · show (markAvoidNodes ((markAvoidNodes g ns false).setEdgesAvailable eids false) ns
        true).codeIndex = g.codeIndex
    rw [(markAvoidNodes_frame ns true _).2.1]
    show (markAvoidNodes g ns false).codeIndex = g.codeIndex
    exact (markAvoidNodes_frame ns false g).2.1
  · show ((markAvoidNodes ((markAvoidNodes g ns false).setEdgesAvailable eids false) ns
        true).edges.map _) = g.edges
    rw [(markAvoidNodes_frame ns true _).1]
    show (((markAvoidNodes g ns false).edges.map _).map _) = g.edges
    rw [(markAvoidNodes_frame ns false g).1, List.map_map]
    apply map_eq_self
    intro e hem
    obtain ⟨ei, eo, ed, ew, edr, ea, er⟩ := e
    have : ea = true := he _ hem
    subst this
    by_cases hin : ei ∈ eids <;> simp [Function.comp, hin]
  · show (markAvoidNodes ((markAvoidNodes g ns false).setEdgesAvailable eids false) ns
        true).nextEid = g.nextEid
    rw [(markAvoidNodes_frame ns true _).2.2]
    show (markAvoidNodes g ns false).nextEid = g.nextEid
    exact (markAvoidNodes_frame ns false g).2.2

/-- Unmarking exactly the marked edges restores the graph, provided the
marked identities belonged to available edges. -/
theorem setEdges_restore (g : Graph) (eids : List Nat)
    (h : ∀ e ∈ g.edges, e.eid ∈ eids → e.available = true) :
    (g.setEdgesAvailable eids false).setEdgesAvailable eids true = g := by
  apply Graph.eq_of_fields
  · rfl
  · rfl
  · show ((g.edges.map _).map _) = g.edges
    rw [List.map_map]
    apply map_eq_self
    intro e hem
    by_cases hin : e.eid ∈ eids
    · obtain ⟨ei, eo, ed, ew, edr, ea, er⟩ := e
      have : ea = true := h _ hem hin
      subst this
      simp only [List.mem_cons] at hin
      simp [Function.comp, hin]
    · simp [Function.comp, hin]
  · rfl

theorem eq_of_eid_mem {g : Graph} (hwf : g.WF) {e1 e2 : Edge}
    (h1 : e1 ∈ g.edges) (h2 : e2 ∈ g.edges) (heid : e1.eid = e2.eid) : e1 = e2 :=
  List.inj_on_of_nodup_map hwf.2.1 h1 h2 heid

/-- C3: on the specification's own scenario (restricted route from `A`
to `C` avoiding the only connector `B`, no waypoint), the operation
does not complete normally with a "none" outcome: the no-stop branch
reads `path.back()` on the empty path — undefined behaviour — and the
availability flags are left mutated (`B` is still unavailable). -/
theorem restricted_no_path_empty_back :
    (gABC.fastestRestrictedDrivingPath 1 3 [2] [] none).1 = .error .emptyBack ∧
    (((gABC.fastestRestrictedDrivingPath 1 3 [2] [] none).2.findVertex 2).map
      (fun v => v.available)) = some false := by decide

/-- C2 counterexample: a lookup failure (unknown origin id 99) escapes
`fastestRestrictedDrivingPath` before any restoration step, leaving the
avoided vertex `B` unavailable after the call. -/
theorem restricted_lookup_leaves_marks :
    (gABC.fastestRestrictedDrivingPath 99 3 [2] [] none).1 =
      .error (.lookup ("Dijkstra error: could not find vertex with id " ++
        toString (99 : Int))) ∧
    (((gABC.fastestRestrictedDrivingPath 99 3 [2] [] none).2.findVertex 2).map
      (fun v => v.available)) = some false := by decide

/-- C2: the restoration guarantee that actually holds.  The
alternate-route operation restores the flags on every exit (given a
well-formed graph with nonnegative drive times); the restricted and
multimodal operations restore them on every successful (`.ok`) exit of
a graph whose flags were all set — but not on their failure exits
(`restricted_lookup_leaves_marks`, `restricted_no_path_empty_back`). -/
theorem availability_restoration (g : Graph) :
    (∀ o d, g.WF → NonnegDrive g → (g.fastestDrivingPathWithAlt o d).2 = g) ∧
    (AllAvail g → ∀ o d ns segs stop out g',
      g.fastestRestrictedDrivingPath o d ns segs stop = (.ok out, g') → g' = g) ∧
    (AllAvail g → ∀ s d mw ns segs out g',
      calculateEnvironmentalRoute g s d mw ns segs = (.ok out, g') → g' = g) := by
  refine ⟨?_, ?_, ?_⟩
  · intro o d hwf hnn
    rcases hst : g.dijkstraDrivingState o d with msg | st1
    · simp [Graph.fastestDrivingPathWithAlt, hst]
    · have ho : (g.findVertex o).isSome := by
        by_contra h
        rw [Option.not_isSome_iff_eq_none] at h
        simp [Graph.dijkstraDrivingState, h] at hst
      have hd : (g.findVertex d).isSome := by
        obtain ⟨vo, hvo⟩ := Option.isSome_iff_exists.mp ho
        by_contra h
        rw [Option.not_isSome_iff_eq_none] at h
        simp [Graph.dijkstraDrivingState, hvo, h] at hst
      by_cases hempty : g.getPath st1 d = []
      · simp [Graph.fastestDrivingPathWithAlt, hst, hempty]
      · rcases hst2 : (g.setEdgesAvailable ((g.getPath st1 d).map (fun e => e.eid))
            false).dijkstraDrivingState o d with msg2 | st2
        · exfalso
          obtain ⟨vo, hvo⟩ := Option.isSome_iff_exists.mp ho
          obtain ⟨vd, hvd⟩ := Option.isSome_iff_exists.mp hd
          rw [Graph.dijkstraDrivingState, setEdges_findVertex, setEdges_findVertex,
            hvo, hvd] at hst2
          simp at hst2
        · have hgoal : (g.fastestDrivingPathWithAlt o d).2 =
              (g.setEdgesAvailable ((g.getPath st1 d).map (fun e => e.eid))
                false).setEdgesAvailable ((g.getPath st1 d).map (fun e => e.eid)) true := by
            simp only [Graph.fastestDrivingPathWithAlt, hst, if_neg hempty, hst2]
          rw [hgoal]
          apply setEdges_restore
          intro e hem hin
          have hpath : DrivePath g o d (g.getPath st1 d) :=
            dijkstraDriving_path_of_ne_nil hwf hnn
              (by simp [Graph.dijkstraDriving, hst, Except.map]) hempty
          obtain ⟨pe, hpe, hpeid⟩ := List.mem_map.mp hin
          have hpeg : pe ∈ g.edges := hpath.edges_mem pe hpe
          have heq : e = pe := eq_of_eid_mem hwf hem hpeg hpeid.symm
          rw [heq]
          exact (hpath.edges_usable pe hpe).2.1
  · intro hav o d ns segs stop out g' hrun
    have hrest := mark_unmark_restore g ns
      (switchedEdgeIds (markAvoidNodes g ns false) segs) hav
    cases stop with
    | none =>
      rcases hst : ((markAvoidNodes g ns false).setEdgesAvailable
          (switchedEdgeIds (markAvoidNodes g ns false) segs) false).dijkstraDrivingState
          o d with msg | st
      · simp [Graph.fastestRestrictedDrivingPath, hst] at hrun
      · rcases hlast : (((markAvoidNodes g ns false).setEdgesAvailable
            (switchedEdgeIds (markAvoidNodes g ns false) segs) false).getPath st
            d).getLast? with - | lastE
        · simp [Graph.fastestRestrictedDrivingPath, hst, hlast] at hrun
        · simp only [Graph.fastestRestrictedDrivingPath, hst, hlast,
            Prod.mk.injEq] at hrun
          exact hrun.2.symm.trans hrest
    | some s =>
      rcases hst1 : ((markAvoidNodes g ns false).setEdgesAvailable
          (switchedEdgeIds (markAvoidNodes g ns false) segs) false).dijkstraDrivingState
          o s with msg | st1
      · simp [Graph.fastestRestrictedDrivingPath, hst1] at hrun
      · rcases hlast1 : (((markAvoidNodes g ns false).setEdgesAvailable
            (switchedEdgeIds (markAvoidNodes g ns false) segs) false).getPath st1
            s).getLast? with - | lastE1
        · simp only [Graph.fastestRestrictedDrivingPath, hst1, hlast1,
            Prod.mk.injEq] at hrun
          exact hrun.2.symm.trans hrest
        · rcases hst2 : ((markAvoidNodes g ns false).setEdgesAvailable
              (switchedEdgeIds (markAvoidNodes g ns false) segs) false).dijkstraDrivingState
              s d with msg | st2
          · simp [Graph.fastestRestrictedDrivingPath, hst1, hlast1, hst2] at hrun
          · rcases hlast2 : (((markAvoidNodes g ns false).setEdgesAvailable
                (switchedEdgeIds (markAvoidNodes g ns false) segs) false).getPath st2
                d).getLast? with - | lastE2
            · simp only [Graph.fastestRestrictedDrivingPath, hst1, hlast1, hst2, hlast2,
                Prod.mk.injEq] at hrun
              exact hrun.2.symm.trans hrest
            · simp only [Graph.fastestRestrictedDrivingPath, hst1, hlast1, hst2, hlast2,
                Prod.mk.injEq] at hrun
              exact hrun.2.symm.trans hrest
  · intro hav s d mw ns segs out g' hrun
    have hrest := mark_unmark_restore g ns
      (switchedEdgeIds (markAvoidNodes g ns false) segs) hav
    rcases hc : collectEnvCandidates ((markAvoidNodes g ns false).setEdgesAvailable
        (switchedEdgeIds (markAvoidNodes g ns false) segs) false) s d mw
        (((markAvoidNodes g ns false).setEdgesAvailable
          (switchedEdgeIds (markAvoidNodes g ns false) segs) false).getAllParkingVertices)
        with msg | pair
    · simp [calculateEnvironmentalRoute, hc] at hrun
    · obtain ⟨cands, approxCands⟩ := pair
      cases cands with
      | cons c cs =>
        simp only [calculateEnvironmentalRoute, hc, Prod.mk.injEq] at hrun
        exact hrun.2.symm.trans hrest
      | nil =>
        rcases hs : sortApprox approxCands with - | ⟨b0, bs⟩
        · simp only [calculateEnvironmentalRoute, hc, hs, Prod.mk.injEq] at hrun
          exact hrun.2.symm.trans hrest
        · simp only [calculateEnvironmentalRoute, hc, hs, Prod.mk.injEq] at hrun
          exact hrun.2.symm.trans hrest

def restEs132 : List Edge :=
  [⟨0, 1, 2, .val 10, .val 5, true, some 1⟩,
   ⟨2, 2, 3, .val 2, .val 3, true, some 3⟩]

def restOut132 : RestrictedOutput := ⟨1, 3, some restEs132, some (.val 8)⟩

theorem availability_restoration_witness :
    gABC.WF ∧ NonnegDrive gABC ∧ AllAvail gABC ∧
    (gABC.fastestDrivingPathWithAlt 2 3).2 = gABC ∧
    gABC.fastestRestrictedDrivingPath 1 3 [] [] (some 2) = (.ok restOut132, gABC) ∧
    gABC = gABC :=
  have hrun : gABC.fastestRestrictedDrivingPath 1 3 [] [] (some 2) =
      (.ok restOut132, gABC) := by decide
  ⟨by decide, by decide, by decide,
   (availability_restoration gABC).1 2 3 (by decide) (by decide),
   hrun,
   (availability_restoration gABC).2.1 (by decide) 1 3 [] [] (some 2) restOut132
     gABC hrun⟩

/-! ## C5: the multimodal planner selects the best within-budget candidate -/

/-- The walking-leg time of a candidate path, as the planner sums it. -/
def envWalkTime (es : List Edge) : EDouble :=
  es.foldl (fun a e => a.add e.walkTime) (EDouble.val 0)

theorem selectBestEnvCand_mem :
    ∀ (cs : List EnvCand) (c : EnvCand), selectBestEnvCand c cs ∈ c :: cs
  | [], c => List.mem_cons_self c []
  | x :: xs, c => by
    show selectBestEnvCand (if x.total.blt c.total then x else c) xs ∈ c :: x :: xs
    have h := selectBestEnvCand_mem xs (if x.total.blt c.total then x else c)
    rcases List.mem_cons.mp h with h1 | h2
    · rw [h1]
      by_cases hb : x.total.blt c.total = true
      · rw [if_pos hb]
        exact List.mem_cons_of_mem c (List.mem_cons_self x xs)
      · rw [if_neg hb]
        exact List.mem_cons_self c (x :: xs)
    · exact List.mem_cons_of_mem c (List.mem_cons_of_mem x h2)

theorem selectBestEnvCand_min :
    ∀ (cs : List EnvCand) (c : EnvCand) (x : EnvCand), x ∈ c :: cs →
      (selectBestEnvCand c cs).total ≤ x.total
  | [], c, x, hx => by
    rcases List.mem_cons.mp hx with h | h
    · rw [h]
      exact EDouble.le_refl _
    · exact absurd h (List.not_mem_nil x)
  | y :: ys, c, x, hx => by
    show (selectBestEnvCand (if y.total.blt c.total then y else c) ys).total ≤ x.total
    have hseedc : (if y.total.blt c.total then y else c).total ≤ c.total := by
      by_cases hb : y.total.blt c.total = true
      · rw [if_pos hb]
        exact EDouble.le_of_blt hb
      · rw [if_neg hb]
        exact EDouble.le_refl _
    have hseedy : (if y.total.blt c.total then y else c).total ≤ y.total := by
      by_cases hb : y.total.blt c.total = true
      · rw [if_pos hb]
        exact EDouble.le_refl _
      · rw [if_neg hb]
        exact EDouble.blt_eq_false_iff.mp (Bool.eq_false_iff.mpr hb)
    have hself : (selectBestEnvCand (if y.total.blt c.total then y else c) ys).total ≤
        (if y.total.blt c.total then y else c).total :=
      selectBestEnvCand_min ys _ _ (List.mem_cons_self _ ys)
    rcases List.mem_cons.mp hx with h | h
    · rw [h]
      exact EDouble.le_trans hself hseedc
    · rcases List.mem_cons.mp h with h' | h'
      · rw [h']
        exact EDouble.le_trans hself hseedy
      · exact selectBestEnvCand_min ys _ x (List.mem_cons_of_mem _ h')

/-- The partition produced by the candidate loop: everything in the
first list is within the walking budget, everything in the second is
over it. -/
theorem collectEnvCandidates_budget (g : Graph) (s d : VId) (mw : Int) :
    ∀ (parks : List Vertex) (cands : List EnvCand) (approx : List EnvApproxCand),
      collectEnvCandidates g s d mw parks = .ok (cands, approx) →
      (∀ x ∈ cands, envWalkTime x.walkPath ≤ EDouble.val mw) ∧
      (∀ y ∈ approx, y.walkTime = envWalkTime y.walkPath ∧
        ¬ (envWalkTime y.walkPath ≤ EDouble.val mw))
  | [], cands, approx, hrun => by
    rw [collectEnvCandidates] at hrun
    injection hrun with hrun
    obtain ⟨h1, h2⟩ := Prod.ext_iff.mp hrun
    subst h1
    subst h2
    exact ⟨fun x hx => absurd hx (List.not_mem_nil x),
      fun y hy => absurd hy (List.not_mem_nil y)⟩
  | park :: rest, cands, approx, hrun => by
    rw [collectEnvCandidates] at hrun
    by_cases hskip : park.info = s ∨ park.info = d
    · rw [if_pos hskip] at hrun
      exact collectEnvCandidates_budget g s d mw rest cands approx hrun
    · rw [if_neg hskip] at hrun
      rcases hdrive : g.dijkstraDriving s park.info with msg | drivePath
      · rw [hdrive] at hrun
        dsimp only at hrun
        exact Except.noConfusion hrun
      · rw [hdrive] at hrun
        dsimp only at hrun
        by_cases hdp : drivePath = []
        · rw [if_pos hdp] at hrun
          exact collectEnvCandidates_budget g s d mw rest cands approx hrun
        · rw [if_neg hdp] at hrun
          by_cases hwp : g.dijkstraWalking park.info d = []
          · rw [if_pos hwp] at hrun
            exact collectEnvCandidates_budget g s d mw rest cands approx hrun
          · rw [if_neg hwp] at hrun
            rcases hrest : collectEnvCandidates g s d mw rest with msg | pair
            · rw [hrest] at hrun
              dsimp only at hrun
              exact Except.noConfusion hrun
            · obtain ⟨cands', approx'⟩ := pair
              rw [hrest] at hrun
              dsimp only at hrun
              obtain ⟨hc', ha'⟩ :=
                collectEnvCandidates_budget g s d mw rest cands' approx' hrest
              by_cases hbud : (g.dijkstraWalking park.info d).foldl
                  (fun a e => a.add e.walkTime) (EDouble.val 0) ≤ EDouble.val mw
              · rw [if_pos hbud] at hrun
                injection hrun with hrun
                obtain ⟨h1, h2⟩ := Prod.ext_iff.mp hrun
                subst h1
                subst h2
                refine ⟨?_, ha'⟩
                intro x hx
                rcases List.mem_cons.mp hx with hx1 | hx2
                · rw [hx1]
                  exact hbud
                · exact hc' x hx2
              · rw [if_neg hbud] at hrun
                injection hrun with hrun
                obtain ⟨h1, h2⟩ := Prod.ext_iff.mp hrun
                subst h1
                subst h2
                refine ⟨hc', ?_⟩
                intro y hy
                rcases List.mem_cons.mp hy with hy1 | hy2
                · rw [hy1]
                  exact ⟨rfl, hbud⟩
                · exact ha' y hy2

/-- C5: whenever the candidate loop of the multimodal planner finds at
least one within-budget parking candidate, the planner reports the
first within-budget candidate of minimum drive-plus-walk total; every
candidate it chooses among satisfies the walking budget and every
over-budget candidate (whatever its total) is excluded from the
selection. -/
theorem env_route_selects_min (g : Graph) (s d : VId) (mw : Int)
    (ns : List VId) (segs : List (VId × VId)) (c : EnvCand) (cs : List EnvCand)
    (approx : List EnvApproxCand)
    (hc : collectEnvCandidates
        ((markAvoidNodes g ns false).setEdgesAvailable
          (switchedEdgeIds (markAvoidNodes g ns false) segs) false) s d mw
        (((markAvoidNodes g ns false).setEdgesAvailable
          (switchedEdgeIds (markAvoidNodes g ns false) segs) false).getAllParkingVertices)
        = .ok (c :: cs, approx)) :
    (calculateEnvironmentalRoute g s d mw ns segs).1 =
      .ok (.route (selectBestEnvCand c cs).drivePath (selectBestEnvCand c cs).parkId
        (selectBestEnvCand c cs).walkPath (selectBestEnvCand c cs).total) ∧
    selectBestEnvCand c cs ∈ c :: cs ∧
    (∀ x ∈ c :: cs, (selectBestEnvCand c cs).total ≤ x.total) ∧
    (∀ x ∈ c :: cs, envWalkTime x.walkPath ≤ EDouble.val mw) ∧
    (∀ y ∈ approx, ¬ (envWalkTime y.walkPath ≤ EDouble.val mw)) := by
  obtain ⟨hwithin, hover⟩ := collectEnvCandidates_budget _ s d mw _ _ _ hc
  refine ⟨?_, selectBestEnvCand_mem cs c, fun x hx => selectBestEnvCand_min cs c x hx,
    hwithin, fun y hy => (hover y hy).2⟩
  simp only [calculateEnvironmentalRoute, hc]

def envCandB : EnvCand :=
  ⟨.val 7, [⟨0, 1, 2, .val 10, .val 5, true, some 1⟩],
   [⟨2, 2, 3, .val 2, .val 3, true, some 3⟩], 2⟩

theorem env_route_selects_min_witness :
    collectEnvCandidates
        ((markAvoidNodes gABC [] false).setEdgesAvailable
          (switchedEdgeIds (markAvoidNodes gABC [] false) []) false) 1 3 5
        (((markAvoidNodes gABC [] false).setEdgesAvailable
          (switchedEdgeIds (markAvoidNodes gABC [] false) []) false).getAllParkingVertices)
        = .ok ([envCandB], []) ∧
    (calculateEnvironmentalRoute gABC 1 3 5 [] []).1 =
      .ok (.route (selectBestEnvCand envCandB []).drivePath
        (selectBestEnvCand envCandB []).parkId
        (selectBestEnvCand envCandB []).walkPath
        (selectBestEnvCand envCandB []).total) :=
  have hc : collectEnvCandidates
      ((markAvoidNodes gABC [] false).setEdgesAvailable
        (switchedEdgeIds (markAvoidNodes gABC [] false) []) false) 1 3 5
      (((markAvoidNodes gABC [] false).setEdgesAvailable
        (switchedEdgeIds (markAvoidNodes gABC [] false) []) false).getAllParkingVertices)
      = .ok ([envCandB], []) := by decide
  ⟨hc, (env_route_selects_min gABC 1 3 5 [] [] envCandB [] [] hc).1⟩

end RoutePlanner
